import Mathlib

/-!
# VTable encryption: a shallow embedding of `vtableenc.h`

The C++ header defines a keyed byte transform over the first pointer-width
bytes of an object (`VTableEncryption`) and a call wrapper that keeps those
bytes encrypted between calls (`SecureVTable`).

Conventions of the embedding (LP64 target, as `main.cpp` prints pointers on
16 hex digits):

* `uint64_t` / `size_t` values are `Nat`, reduced `% 2^64` wherever the C++
  arithmetic can wrap; `uint8_t` values are `Nat`, reduced `% 256`;
  `uint32_t` values are `Nat` below `2^32`.
* Memory is a map from addresses to bytes; a pointer is an address.
* `std::mt19937_64` is library code: the cipher is written over an arbitrary
  generator `Rng`, and the engine of the C++ standard is given as one
  instance, `mt19937_64`.
* `std::random_device` draws are inputs of the constructors.
* A member function that may throw is a function into `Except`.
-/

set_option autoImplicit false
set_option maxRecDepth 100000

namespace VTableEnc

/-! ## Machine words -/

/-- Modulus of `uint64_t` and of `size_t`. -/
def W64 : Nat := 2 ^ 64

/-- Width of a pointer in bytes, `sizeof(void*)`. -/
def ptrSize : Nat := 8

/-- Byte-addressed memory. -/
abbrev Mem := Nat → Nat

/-- The `n` bytes of memory starting at address `a`. -/
def window (m : Mem) (a n : Nat) : List Nat :=
  (List.range n).map (fun i => m (a + i))

/-- Every byte of the `n`-byte window at `a` is a `uint8_t` value. -/
def ValidWindow (m : Mem) (a n : Nat) : Prop :=
  ∀ i, i < n → m (a + i) < 256

instance (m : Mem) (a n : Nat) : Decidable (ValidWindow m a n) := by
  unfold ValidWindow
  infer_instance

/-! ## The pseudorandom generator interface -/

/-- A seedable generator of 64-bit values: `seed` is `gen.seed(value)`,
`next` is `gen()`, returning the output and the advanced state. -/
structure Rng (σ : Type) where
  seed : Nat → σ
  next : σ → Nat × σ

/-- Initialisation recurrence of `mt19937_64`: from the previous word `p`,
the words of index `i, i+1, ...`, `n` of them. -/
def mtInit : Nat → Nat → Nat → List Nat
  | 0, _, _ => []
  | n + 1, i, p =>
    let x := (6364136223846793005 * (p ^^^ (p >>> 62)) + i) % W64
    x :: mtInit n (i + 1) x

/-- State after `seed(value)`: the 312 words `X_0 .. X_311`. -/
def mtSeed (value : Nat) : List Nat :=
  (value % W64) :: mtInit 311 1 (value % W64)

/-- Tempering of `mt19937_64`. -/
def mtTemper (x : Nat) : Nat :=
  let z := x ^^^ ((x >>> 29) &&& 0x5555555555555555)
  let z := z ^^^ (((z <<< 17) % W64) &&& 0x71D67FFFEDA60000)
  let z := z ^^^ (((z <<< 37) % W64) &&& 0xFFF7EEE000000000)
  z ^^^ (z >>> 43)

/-- One transition of `mt19937_64` on the sliding window of the last 312
words: the new word is `X_{i+m-n} xor twist(X_{i-n}, X_{i+1-n})`. -/
def mtNext (s : List Nat) : Nat × List Nat :=
  let y := (s.getD 0 0 &&& 0xFFFFFFFF80000000) ||| (s.getD 1 0 &&& 0x7FFFFFFF)
  let x := s.getD 156 0 ^^^ (y >>> 1) ^^^ (if y % 2 = 1 then 0xB5026F5AA96619E9 else 0)
  (mtTemper x, s.tail ++ [x])

/-- The 64-bit Mersenne twister of the C++ standard library. -/
def mt19937_64 : Rng (List Nat) := ⟨mtSeed, mtNext⟩

/-! ## `VTableEncryption` -/

/-- Data members of `class VTableEncryption`. -/
structure VTableEncryption (σ : Type) where
  k1 : Nat
  k2 : Nat
  k3 : Nat
  gen : σ
  seed : Nat
  salt : Nat

/-- The working values `(k1, k2, k3)` of a cipher. -/
def VTableEncryption.keys {σ : Type} (c : VTableEncryption σ) : Nat × Nat × Nat :=
  (c.k1, c.k2, c.k3)

/-- Member `rotl`: `(x << r) | (x >> (64 - r))` on `uint64_t`. -/
def rotl (x r : Nat) : Nat :=
  ((x <<< r) % W64) ||| (x >>> (64 - r))

/-- Member `rotr`: `(x >> r) | (x << (64 - r))` on `uint64_t`. -/
def rotr (x r : Nat) : Nat :=
  (x >>> r) ||| ((x <<< (64 - r)) % W64)

/-- Member `rotl8`: `r = r & 7; return (x << r) | (x >> (8 - r));` with the
result converted to `uint8_t`. -/
def rotl8 (x r : Nat) : Nat :=
  let r := r &&& 7
  ((x <<< r) ||| (x >>> (8 - r))) % 256

/-- Member `rotr8`: `r = r & 7; return (x >> r) | (x << (8 - r));` with the
result converted to `uint8_t`. -/
def rotr8 (x r : Nat) : Nat :=
  let r := r &&& 7
  ((x >>> r) ||| (x <<< (8 - r))) % 256

/-- Member `mix`. -/
def mix (v s : Nat) : Nat :=
  let v := v ^^^ s
  let v := (v * 0x9e3779b97f4a7c15) % W64
  let v := rotl v 31
  (v * 0xbf58476d1ce4e5b9) % W64

/-- The body of the loop of `expandKey`, run `n` times. -/
def mixRounds : Nat → Nat × Nat × Nat → Nat × Nat × Nat
  | 0, k => k
  | n + 1, (k1, k2, k3) =>
    let k1 := mix k1 k2
    let k2 := mix k2 k3
    let k3 := mix k3 k1
    mixRounds n (k1, k2, k3)

/-- Member `expandKey`. -/
def expandKey {σ : Type} (R : Rng σ) (c : VTableEncryption σ) (seed len : Nat) :
    VTableEncryption σ :=
  let g := R.seed seed
  let d1 := R.next g
  let d2 := R.next d1.2
  let d3 := R.next d2.2
  let k := mixRounds (len &&& 0xFF) (d1.1, d2.1, d3.1)
  { c with k1 := k.1, k2 := k.2.1, k3 := k.2.2, gen := d3.2 }

/-- Member `getKeyByte`. -/
def getKeyByte {σ : Type} (c : VTableEncryption σ) (idx : Nat) : Nat :=
  let pos := idx
  let h := c.k1
  let h := h ^^^ mix pos c.k2
  let h := rotl h 13
  let h := h ^^^ mix ((pos * c.k3) % W64) c.k1
  let h := rotr h 7
  let h := h ^^^ c.k3
  ((h ^^^ (h >>> 32)) &&& 0xFF) % 256

/-- The value one iteration of the loop of `transform` leaves in `data[i]`,
from the value `b` it finds there. -/
def transformByte {σ : Type} (c : VTableEncryption σ) (size salt : Nat)
    (encrypt : Bool) (i b : Nat) : Nat :=
  let kb := getKeyByte c ((i + salt) % W64)
  if encrypt then
    let d := (b ^^^ kb) % 256
    let d := rotl8 d (kb &&& 7)
    (d ^^^ getKeyByte c ((size - i - 1 + salt) % W64)) % 256
  else
    let d := (b ^^^ getKeyByte c ((size - i - 1 + salt) % W64)) % 256
    let d := rotr8 d (kb &&& 7)
    (d ^^^ kb) % 256

/-- One iteration of the loop of `transform`, at index `i`. -/
def transformStep {σ : Type} (c : VTableEncryption σ) (data size salt : Nat)
    (encrypt : Bool) (i : Nat) (m : Mem) : Mem :=
  Function.update m (data + i) (transformByte c size salt encrypt i (m (data + i)))

/-- The loop of `transform` from index `i`, with `n` iterations left. -/
def transformLoop {σ : Type} (c : VTableEncryption σ) (data size salt : Nat)
    (encrypt : Bool) : Nat → Nat → Mem → Mem
  | 0, _, m => m
  | n + 1, i, m =>
    transformLoop c data size salt encrypt n (i + 1)
      (transformStep c data size salt encrypt i m)

/-- Member `transform`: `for (size_t i = 0; i < size; i++) ...`. -/
def transform {σ : Type} (c : VTableEncryption σ) (m : Mem) (data size salt : Nat)
    (encrypt : Bool) : Mem :=
  transformLoop c data size salt encrypt size 0 m

/-- Constructor `VTableEncryption()`: `r1`, `r2`, `r3` are the three
`std::random_device` draws, `g0` the default-constructed generator. The
members `k1, k2, k3` have no initialiser; `expandKey` overwrites them before
any use, and they start here at 0. -/
def VTableEncryption.new {σ : Type} (R : Rng σ) (g0 : σ) (r1 r2 r3 : Nat) :
    VTableEncryption σ :=
  let seed := (((r1 % 2 ^ 32) <<< 32) % W64) ||| (r2 % 2 ^ 32)
  let salt := r3 % 2 ^ 32
  expandKey R ⟨0, 0, 0, g0, seed, salt⟩ seed 256

/-- Member `encryptVTable`. -/
def encryptVTable {σ : Type} (R : Rng σ) (c : VTableEncryption σ) (m : Mem) (obj : Nat) :
    VTableEncryption σ × Mem :=
  let c := expandKey R c c.seed ((ptrSize + c.salt) % W64)
  (c, transform c m obj ptrSize c.salt true)

/-- Member `decryptVTable`. -/
def decryptVTable {σ : Type} (R : Rng σ) (c : VTableEncryption σ) (m : Mem) (obj : Nat) :
    VTableEncryption σ × Mem :=
  let c := expandKey R c c.seed ((ptrSize + c.salt) % W64)
  (c, transform c m obj ptrSize c.salt false)

/-- Member `encryptObject`. -/
def encryptObject {σ : Type} (R : Rng σ) (c : VTableEncryption σ) (m : Mem) (obj : Nat) :
    VTableEncryption σ × Mem :=
  encryptVTable R c m obj

/-- Member `decryptObject`. -/
def decryptObject {σ : Type} (R : Rng σ) (c : VTableEncryption σ) (m : Mem) (obj : Nat) :
    VTableEncryption σ × Mem :=
  decryptVTable R c m obj

/-- Memory holding the bytes `bs` from address `a` on, zero elsewhere. -/
def memOf (a : Nat) (bs : List Nat) : Mem :=
  fun x => if a ≤ x then bs.getD (x - a) 0 else 0

/-! ## `SecureVTable` -/

/-- A member function of the guarded class, bound to its object and its
arguments: from the memory it runs on, its outcome (the returned value, or the
exception it throws) and the memory it leaves. -/
abbrev Method (ε α : Type) := Mem → Except ε α × Mem

/-- Data members of `class SecureVTable<Base>`. -/
structure SecureVTable (σ : Type) where
  obj : Nat
  enc : VTableEncryption σ

/-- Constructor `SecureVTable(Base* ptr)`: the member `enc` is
default-constructed from the `std::random_device` draws `r1`, `r2`, `r3`,
then the body runs `enc.encryptObject(obj)`. -/
def SecureVTable.new {σ : Type} (R : Rng σ) (g0 : σ) (r1 r2 r3 : Nat) (ptr : Nat)
    (m : Mem) : SecureVTable σ × Mem :=
  let enc := VTableEncryption.new R g0 r1 r2 r3
  let e := encryptObject R enc m ptr
  (⟨ptr, e.1⟩, e.2)

/-- Destructor `~SecureVTable()`. -/
def SecureVTable.destroy {σ : Type} (R : Rng σ) (h : SecureVTable σ) (m : Mem) : Mem :=
  (decryptObject R h.enc m h.obj).2

/-- Member `call`, value-returning overload. A throwing `f` leaves the
function at the call: the statements after it do not run. -/
def SecureVTable.call {σ ε α : Type} (R : Rng σ) (h : SecureVTable σ) (f : Method ε α)
    (m : Mem) : Except ε α × SecureVTable σ × Mem :=
  let d := decryptObject R h.enc m h.obj
  match f d.2 with
  | (Except.ok result, m2) =>
    let e := encryptObject R d.1 m2 h.obj
    (Except.ok result, ⟨h.obj, e.1⟩, e.2)
  | (Except.error x, m2) => (Except.error x, ⟨h.obj, d.1⟩, m2)

/-- Member `call`, `void` overload. -/
def SecureVTable.callVoid {σ ε : Type} (R : Rng σ) (h : SecureVTable σ) (f : Method ε Unit)
    (m : Mem) : Except ε Unit × SecureVTable σ × Mem :=
  let d := decryptObject R h.enc m h.obj
  match f d.2 with
  | (Except.ok _, m2) =>
    let e := encryptObject R d.1 m2 h.obj
    (Except.ok (), ⟨h.obj, e.1⟩, e.2)
  | (Except.error x, m2) => (Except.error x, ⟨h.obj, d.1⟩, m2)

/-- Member `get`. -/
def SecureVTable.get {σ : Type} (R : Rng σ) (h : SecureVTable σ) (m : Mem) :
    Nat × SecureVTable σ × Mem :=
  let d := decryptObject R h.enc m h.obj
  let temp := h.obj
  let e := encryptObject R d.1 d.2 h.obj
  (temp, ⟨h.obj, e.1⟩, e.2)

/-- One use of a handle. -/
inductive Op (ε : Type) : Type 1 where
  | call {α : Type} (f : Method ε α) : Op ε
  | callVoid (f : Method ε Unit) : Op ε
  | get : Op ε

/-- The method of the operation does not write the pointer-width window of
the object at `obj`. -/
def Op.NoWrite {ε : Type} (obj : Nat) : Op ε → Prop
  | Op.call f => ∀ m, window (f m).2 obj ptrSize = window m obj ptrSize
  | Op.callVoid f => ∀ m, window (f m).2 obj ptrSize = window m obj ptrSize
  | Op.get => True

/-- One operation through the handle; `none` when the method throws. -/
def runOp {σ ε : Type} (R : Rng σ) (op : Op ε) (s : SecureVTable σ × Mem) :
    Option (SecureVTable σ × Mem) :=
  match op with
  | Op.call f =>
    match SecureVTable.call R s.1 f s.2 with
    | (Except.ok _, s2) => some s2
    | (Except.error _, _) => none
  | Op.callVoid f =>
    match SecureVTable.callVoid R s.1 f s.2 with
    | (Except.ok _, s2) => some s2
    | (Except.error _, _) => none
  | Op.get => some (SecureVTable.get R s.1 s.2).2

/-- A sequence of operations through the handle, all returning normally. -/
def runOps {σ ε : Type} (R : Rng σ) : List (Op ε) → SecureVTable σ × Mem →
    Option (SecureVTable σ × Mem)
  | [], s => some s
  | op :: ops, s => (runOp R op s).bind (runOps R ops)

/-- The same operation invoked directly on an unguarded object: the method
runs on the memory as it is; `get` only reads the pointer. -/
def directOp {ε : Type} (op : Op ε) (m : Mem) : Option Mem :=
  match op with
  | Op.call f =>
    match f m with
    | (Except.ok _, m2) => some m2
    | (Except.error _, _) => none
  | Op.callVoid f =>
    match f m with
    | (Except.ok _, m2) => some m2
    | (Except.error _, _) => none
  | Op.get => some m

/-- A sequence of direct invocations on an unguarded object. -/
def runDirect {ε : Type} : List (Op ε) → Mem → Option Mem
  | [], m => some m
  | op :: ops, m => (directOp op m).bind (runDirect ops)

/-! ## Repeated operations of one cipher -/

/-- The call `enc.encryptObject(obj)` made `k` times in a row. -/
def encryptTimes {σ : Type} (R : Rng σ) (obj k : Nat) (s : VTableEncryption σ × Mem) :
    VTableEncryption σ × Mem :=
  (fun t => encryptObject R t.1 t.2 obj)^[k] s

/-- The call `enc.decryptObject(obj)` made `k` times in a row. -/
def decryptTimes {σ : Type} (R : Rng σ) (obj k : Nat) (s : VTableEncryption σ × Mem) :
    VTableEncryption σ × Mem :=
  (fun t => decryptObject R t.1 t.2 obj)^[k] s

/-! ## Sequences of transforms -/

/-- The calls `transform(data, size, salt, e)` for the directions `e` of a
list, in order (`true` encrypts, `false` decrypts). -/
def applySeq {σ : Type} (c : VTableEncryption σ) (data size salt : Nat) :
    List Bool → Mem → Mem
  | [], m => m
  | e :: es, m => applySeq c data size salt es (transform c m data size salt e)

/-- The directions of a list alternate: no two neighbours are equal. -/
def alternated : List Bool → Bool
  | a :: b :: rest => (a != b) && alternated (b :: rest)
  | _ => true

/-! ## Several ciphers over one memory -/

/-- A program state with one memory and a family of cipher instances, as in
the "Multiple Objects" part of `main.cpp`. -/
structure World (σ : Type) where
  mem : Mem
  ciphers : Nat → VTableEncryption σ

/-- The call `enc_id.encryptObject(obj)`: only the instance `id` and the memory
are handed to the member function. -/
def World.encryptObject {σ : Type} (R : Rng σ) (w : World σ) (id obj : Nat) : World σ :=
  let r := VTableEnc.encryptObject R (w.ciphers id) w.mem obj
  ⟨r.2, Function.update w.ciphers id r.1⟩

/-- The call `enc_id.decryptObject(obj)`. -/
def World.decryptObject {σ : Type} (R : Rng σ) (w : World σ) (id obj : Nat) : World σ :=
  let r := VTableEnc.decryptObject R (w.ciphers id) w.mem obj
  ⟨r.2, Function.update w.ciphers id r.1⟩

/-! ## Keystream positions -/

/-- Position of the first key byte of byte `i`: the `size_t` value of
`i + salt` in `transform`. -/
def fwdPos (salt i : Nat) : Nat := (i + salt) % W64

/-- Position of the second key byte of byte `i`: the `size_t` value of
`size - i - 1 + salt` in `transform`. -/
def revPos (size salt i : Nat) : Nat := (size - i - 1 + salt) % W64

/-- The first key bytes of the bytes `0 .. size - 1` of a window: the values
`kb = getKeyByte(i + salt)` of the iterations of `transform`, in order. -/
def keyBytes {σ : Type} (c : VTableEncryption σ) (salt size : Nat) : List Nat :=
  (List.range size).map (fun i => getKeyByte c ((i + salt) % W64))

/-! ## Reference form of the key schedule -/

/-- The first three outputs of the generator after `gen.seed(seed)`. -/
def firstThree {σ : Type} (R : Rng σ) (seed : Nat) : Nat × Nat × Nat :=
  let d1 := R.next (R.seed seed)
  let d2 := R.next d1.2
  let d3 := R.next d2.2
  (d1.1, d2.1, d3.1)

/-- One round of the sequential update as the specification words it:
`k1 := mix(k1, k2); k2 := mix(k2, k3); k3 := mix(k3, k1)`, the last with the
already-updated `k1`. -/
def mixRoundRef (k : Nat × Nat × Nat) : Nat × Nat × Nat :=
  (mix k.1 k.2.1, mix k.2.1 k.2.2, mix k.2.2 (mix k.1 k.2.1))

/-- The number of rounds `expandKey` runs inside `encryptVTable` and
`decryptVTable` of a cipher with this salt: `(sizeof(void*) + salt) & 0xFF`. -/
def saltRounds (salt : Nat) : Nat :=
  ((ptrSize + salt) % W64) &&& 0xFF

/-- The three working values are 64-bit words. -/
def Words64 (k : Nat × Nat × Nat) : Prop :=
  k.1 < W64 ∧ k.2.1 < W64 ∧ k.2.2 < W64

instance (k : Nat × Nat × Nat) : Decidable (Words64 k) := by
  unfold Words64
  infer_instance

/-! ## Reference form of `mix` -/

/-- Rotation of a 64-bit word left by `r`, in arithmetic: the low `64 - r`
bits move up by `r` places and the high `r` bits come down to the bottom. -/
def rotl64Ref (x r : Nat) : Nat :=
  (x % 2 ^ (64 - r)) * 2 ^ r + x / 2 ^ (64 - r)

/-- The reference definition of `mix` over 64-bit wrap-around arithmetic. -/
def mixRef (v s : Nat) : Nat :=
  (rotl64Ref (((v ^^^ s) * 0x9e3779b97f4a7c15) % 2 ^ 64) 31 * 0xbf58476d1ce4e5b9) % 2 ^ 64

/-- The inverse of `mix` in its first argument: multiply by the inverse of the
second constant, rotate right by 31, multiply by the inverse of the first
constant, xor with `s`. -/
def mixInv (y s : Nat) : Nat :=
  ((rotr ((y * 0x96de1b173f119089) % W64) 31 * 0xf1de83e19937733d) % W64) ^^^ s

/-! ## Bit diffusion of `mix` -/

/-- Flipping bit `i` of `v` flips bit `j` of `mix(v, s)`. -/
def flips (i j v s : Nat) : Bool :=
  (mix (v ^^^ 2 ^ i) s).testBit j != (mix v s).testBit j

/-- Sample first arguments of `mix` used to exhibit bit flips. -/
def diffusionSamples : List Nat :=
  [13455058590201385605, 0, 7329174966997533941, 10115059443641873252,
   598765265892340545, 3502109416845026634, 6834936842587758009, 14799178230035213023,
   10904855999123826993, 15352208830632139213, 12821425981348467974, 16902195153864458910,
   81985529216486895, 14841687356090179138]

/-- Every pair `(i, j)` with `i ≤ 33` or `i ≤ j + 33` has a sample whose bit
`i` flips output bit `j`, with `s = 0`. -/
def samplesCover : Bool :=
  (List.range 64).all fun i => (List.range 64).all fun j =>
    !(decide (i ≤ 33) || decide (i ≤ j + 33)) || diffusionSamples.any fun v => flips i j v 0

/-! ## Bit differences between windows -/

/-- Number of set bits of a byte. -/
def popcount8 (b : Nat) : Nat :=
  ((List.range 8).filter (fun j => b.testBit j)).length

/-- Number of bit positions in which the `n`-byte windows at `a` of two
memories differ. -/
def hammingWindow (m1 m2 : Mem) (a n : Nat) : Nat :=
  ((List.range n).map (fun i => popcount8 (m1 (a + i) ^^^ m2 (a + i)))).sum

/-! ## Concrete instances -/

/-- A cipher built by the constructor on the standard engine, with draws
`0, 1, 0`: seed `1`, salt `0`. -/
def demoCipher : VTableEncryption (List Nat) :=
  VTableEncryption.new mt19937_64 (mtSeed 5489) 0 1 0

/-- The cipher `demoCipher` after the key derivation of `encryptVTable`. -/
def demoKeyed : VTableEncryption (List Nat) :=
  expandKey mt19937_64 demoCipher demoCipher.seed ((ptrSize + demoCipher.salt) % W64)

/-- A memory with an object at address 16 whose first eight bytes are
`1, 2, ..., 8`, followed by a data byte `100` at address 24, and a second
object at address 32. -/
def demoMem : Mem :=
  memOf 16 [1, 2, 3, 4, 5, 6, 7, 8, 100, 0, 0, 0, 0, 0, 0, 0, 9, 10, 11, 12, 13, 14, 15, 16]

/-- A method that returns the data byte at address 24. -/
def demoRead : Method Unit Nat :=
  fun m => (Except.ok (m 24), m)

/-- A method that lowers the data byte at address 24 by `amount`. -/
def demoLower (amount : Nat) : Method Unit Unit :=
  fun m => (Except.ok (), Function.update m 24 ((m 24 + 256 - amount % 256) % 256))

/-- A method that throws without writing memory. -/
def demoThrow : Method Unit Nat :=
  fun m => (Except.error (), m)

/-- A sequence of uses of a handle, as in the wrapper demo of `main.cpp`. -/
def demoOps : List (Op Unit) :=
  [Op.callVoid (demoLower 30), Op.call demoRead, Op.get]

/-- Three cipher instances (seeds 1, 2, 3, salt 0) over `demoMem`. -/
def demoWorld : World (List Nat) :=
  ⟨demoMem, fun id => VTableEncryption.new mt19937_64 (mtSeed 5489) 0 (id % 3 + 1) 0⟩

/-- An eight-byte window that the cipher of seed 124 and salt 0 maps to
itself. -/
def fixedWindow : List Nat := [30, 65, 120, 48, 48, 120, 40, 119]

/-- The handle and memory after `SecureVTable` is constructed on the object
at address 16 of `demoMem`, with `std::random_device` draws `0, 1, 0`. -/
def demoGuarded : SecureVTable (List Nat) × Mem :=
  SecureVTable.new mt19937_64 (mtSeed 5489) 0 1 0 16 demoMem

/-! ## Bytes and rotations -/

theorem getKeyByte_lt {σ : Type} (c : VTableEncryption σ) (idx : Nat) :
    getKeyByte c idx < 256 := by
  unfold getKeyByte
  exact Nat.mod_lt _ (by norm_num)

theorem rotl8_lt (x r : Nat) : rotl8 x r < 256 := by
  unfold rotl8
  exact Nat.mod_lt _ (by norm_num)

theorem rotr8_lt (x r : Nat) : rotr8 x r < 256 := by
  unfold rotr8
  exact Nat.mod_lt _ (by norm_num)

theorem and7_lt (r : Nat) : r &&& 7 < 8 :=
  Nat.lt_succ_of_le Nat.and_le_right

theorem rotr8_rotl8_small : ∀ x, x < 256 → ∀ r, r < 8 → rotr8 (rotl8 x r) r = x := by
  decide

theorem rotl8_rotr8_small : ∀ x, x < 256 → ∀ r, r < 8 → rotl8 (rotr8 x r) r = x := by
  decide

theorem xor_byte_mod {x y : Nat} (hx : x < 256) (hy : y < 256) :
    (x ^^^ y) % 256 = x ^^^ y :=
  Nat.mod_eq_of_lt (Nat.xor_lt_two_pow (n := 8) hx hy)

theorem xor_xor_cancel (x y : Nat) : (x ^^^ y) ^^^ y = x := by
  rw [Nat.xor_assoc, Nat.xor_self, Nat.xor_zero]

/-- Decrypting the byte that encryption produced gives the byte back. -/
theorem transformByte_dec_enc {σ : Type} (c : VTableEncryption σ) (size salt i b : Nat)
    (hb : b < 256) :
    transformByte c size salt false i (transformByte c size salt true i b) = b := by
  simp only [transformByte, if_true, Bool.false_eq_true, if_false]
  have hk := getKeyByte_lt c ((i + salt) % W64)
  have hk2 := getKeyByte_lt c ((size - i - 1 + salt) % W64)
  rw [xor_byte_mod hb hk, xor_byte_mod (rotl8_lt _ _) hk2, xor_xor_cancel,
    Nat.mod_eq_of_lt (rotl8_lt _ _),
    rotr8_rotl8_small _ (Nat.xor_lt_two_pow (n := 8) hb hk) _ (and7_lt _),
    xor_xor_cancel, Nat.mod_eq_of_lt hb]

/-- Encrypting the byte that decryption produced gives the byte back. -/
theorem transformByte_enc_dec {σ : Type} (c : VTableEncryption σ) (size salt i b : Nat)
    (hb : b < 256) :
    transformByte c size salt true i (transformByte c size salt false i b) = b := by
  simp only [transformByte, if_true, Bool.false_eq_true, if_false]
  have hk := getKeyByte_lt c ((i + salt) % W64)
  have hk2 := getKeyByte_lt c ((size - i - 1 + salt) % W64)
  rw [xor_byte_mod hb hk2, xor_byte_mod (rotr8_lt _ _) hk, xor_xor_cancel,
    Nat.mod_eq_of_lt (rotr8_lt _ _),
    rotl8_rotr8_small _ (Nat.xor_lt_two_pow (n := 8) hb hk2) _ (and7_lt _),
    xor_xor_cancel, Nat.mod_eq_of_lt hb]

theorem transformByte_lt {σ : Type} (c : VTableEncryption σ) (size salt : Nat)
    (encrypt : Bool) (i b : Nat) : transformByte c size salt encrypt i b < 256 := by
  unfold transformByte
  cases encrypt <;> simp only [if_true, Bool.false_eq_true, if_false] <;>
    exact Nat.mod_lt _ (by norm_num)

/-! ## The loop of `transform` -/

theorem transformLoop_apply {σ : Type} (c : VTableEncryption σ) (data size salt : Nat)
    (encrypt : Bool) (n : Nat) :
    ∀ (i : Nat) (m : Mem) (a : Nat),
      transformLoop c data size salt encrypt n i m a =
        if data + i ≤ a ∧ a < data + i + n then
          transformByte c size salt encrypt (a - data) (m a)
        else m a := by
  induction n with
  | zero =>
    intro i m a
    have h : ¬ (data + i ≤ a ∧ a < data + i + 0) := by omega
    simp only [transformLoop, if_neg h]
  | succ n ih =>
    intro i m a
    simp only [transformLoop]
    rw [ih (i + 1) (transformStep c data size salt encrypt i m) a]
    unfold transformStep
    by_cases ha : a = data + i
    · subst ha
      have h1 : ¬ (data + (i + 1) ≤ data + i ∧ data + i < data + (i + 1) + n) := by omega
      have h2 : data + i ≤ data + i ∧ data + i < data + i + (n + 1) := by omega
      rw [if_neg h1, if_pos h2, Function.update_same, Nat.add_sub_cancel_left]
    · rw [Function.update_noteq ha]
      by_cases hr : data + (i + 1) ≤ a ∧ a < data + (i + 1) + n
      · have h2 : data + i ≤ a ∧ a < data + i + (n + 1) := by omega
        rw [if_pos hr, if_pos h2]
      · have h2 : ¬ (data + i ≤ a ∧ a < data + i + (n + 1)) := by omega
        rw [if_neg hr, if_neg h2]

/-- What `transform` leaves at each address. -/
theorem transform_apply {σ : Type} (c : VTableEncryption σ) (m : Mem)
    (data size salt : Nat) (encrypt : Bool) (a : Nat) :
    transform c m data size salt encrypt a =
      if data ≤ a ∧ a < data + size then
        transformByte c size salt encrypt (a - data) (m a)
      else m a := by
  unfold transform
  rw [transformLoop_apply]
  simp only [Nat.add_zero]

theorem transform_outside {σ : Type} (c : VTableEncryption σ) (m : Mem)
    (data size salt : Nat) (encrypt : Bool) (a : Nat) (h : a < data ∨ data + size ≤ a) :
    transform c m data size salt encrypt a = m a := by
  rw [transform_apply, if_neg (by omega)]

theorem transform_inside {σ : Type} (c : VTableEncryption σ) (m : Mem)
    (data size salt : Nat) (encrypt : Bool) (i : Nat) (h : i < size) :
    transform c m data size salt encrypt (data + i) =
      transformByte c size salt encrypt i (m (data + i)) := by
  rw [transform_apply, if_pos (by omega), Nat.add_sub_cancel_left]

theorem transform_valid {σ : Type} (c : VTableEncryption σ) (m : Mem)
    (data size salt : Nat) (encrypt : Bool) :
    ValidWindow (transform c m data size salt encrypt) data size := by
  intro i hi
  rw [transform_inside c m data size salt encrypt i hi]
  exact transformByte_lt _ _ _ _ _ _

/-- The transform reads the cipher only through `(k1, k2, k3)`. -/
theorem getKeyByte_congr {σ τ : Type} (c : VTableEncryption σ) (d : VTableEncryption τ)
    (h : c.keys = d.keys) (idx : Nat) : getKeyByte c idx = getKeyByte d idx := by
  simp only [VTableEncryption.keys, Prod.mk.injEq] at h
  obtain ⟨h1, h2, h3⟩ := h
  simp only [getKeyByte, h1, h2, h3]

theorem transformByte_congr {σ τ : Type} (c : VTableEncryption σ) (d : VTableEncryption τ)
    (h : c.keys = d.keys) (size salt : Nat) (encrypt : Bool) (i b : Nat) :
    transformByte c size salt encrypt i b = transformByte d size salt encrypt i b := by
  simp only [transformByte, getKeyByte_congr c d h]

theorem transform_congr {σ τ : Type} (c : VTableEncryption σ) (d : VTableEncryption τ)
    (h : c.keys = d.keys) (m : Mem) (data size salt : Nat) (encrypt : Bool) :
    transform c m data size salt encrypt = transform d m data size salt encrypt := by
  funext a
  simp only [transform_apply, transformByte_congr c d h]

/-- Decrypting an encrypted window restores the memory. -/
theorem transform_dec_enc {σ : Type} (c : VTableEncryption σ) (m : Mem)
    (data size salt : Nat) (hv : ValidWindow m data size) :
    transform c (transform c m data size salt true) data size salt false = m := by
  funext a
  by_cases ha : data ≤ a ∧ a < data + size
  · rw [transform_apply, if_pos ha, transform_apply, if_pos ha]
    have hb : m a < 256 := by
      have := hv (a - data) (by omega)
      rwa [Nat.add_sub_cancel' ha.1] at this
    exact transformByte_dec_enc c size salt (a - data) (m a) hb
  · rw [transform_apply, if_neg ha, transform_apply, if_neg ha]

/-- Encrypting a decrypted window restores the memory. -/
theorem transform_enc_dec {σ : Type} (c : VTableEncryption σ) (m : Mem)
    (data size salt : Nat) (hv : ValidWindow m data size) :
    transform c (transform c m data size salt false) data size salt true = m := by
  funext a
  by_cases ha : data ≤ a ∧ a < data + size
  · rw [transform_apply, if_pos ha, transform_apply, if_pos ha]
    have hb : m a < 256 := by
      have := hv (a - data) (by omega)
      rwa [Nat.add_sub_cancel' ha.1] at this
    exact transformByte_enc_dec c size salt (a - data) (m a) hb
  · rw [transform_apply, if_neg ha, transform_apply, if_neg ha]

theorem window_length (m : Mem) (a n : Nat) : (window m a n).length = n := by
  simp [window]

theorem window_eq_iff (m m2 : Mem) (a n : Nat) :
    window m a n = window m2 a n ↔ ∀ i, i < n → m (a + i) = m2 (a + i) := by
  unfold window
  constructor
  · intro h i hi
    have := List.map_inj_left.mp h i (List.mem_range.mpr hi)
    exact this
  · intro h
    apply List.map_congr_left
    intro i hi
    exact h i (List.mem_range.mp hi)

theorem validWindow_of_window_eq (m m2 : Mem) (a n : Nat)
    (h : window m a n = window m2 a n) (hv : ValidWindow m2 a n) : ValidWindow m a n := by
  intro i hi
  rw [(window_eq_iff m m2 a n).mp h i hi]
  exact hv i hi

/-! ## Claims on `transform` -/

/-- C1. Round trip: under one KeyState and salt, for every window size `N` and
every byte window at `data`, `transform` with `encrypt = true` followed by
`transform` with `encrypt = false` gives back the window at every index
(indeed the whole memory), in particular for `N = 4` and `N = 8`. -/
theorem transform_round_trip {σ : Type} (c : VTableEncryption σ) (m : Mem)
    (data N salt : Nat) (hW : ValidWindow m data N) :
    window (transform c (transform c m data N salt true) data N salt false) data N
        = window m data N
      ∧ (∀ i, i < N →
          transform c (transform c m data N salt true) data N salt false (data + i)
            = m (data + i))
      ∧ transform c (transform c m data N salt true) data N salt false = m := by
  have h := transform_dec_enc c m data N salt hW
  exact ⟨by rw [h], fun i _ => by rw [h], h⟩

/-! ## Key derivation -/

theorem expandKey_seed {σ : Type} (R : Rng σ) (c : VTableEncryption σ) (seed len : Nat) :
    (expandKey R c seed len).seed = c.seed := rfl

theorem expandKey_salt {σ : Type} (R : Rng σ) (c : VTableEncryption σ) (seed len : Nat) :
    (expandKey R c seed len).salt = c.salt := rfl

theorem expandKey_keys {σ : Type} (R : Rng σ) (c d : VTableEncryption σ) (seed len : Nat) :
    (expandKey R c seed len).keys = (expandKey R d seed len).keys := rfl

theorem expandKey_gen {σ : Type} (R : Rng σ) (c d : VTableEncryption σ) (seed len : Nat) :
    (expandKey R c seed len).gen = (expandKey R d seed len).gen := rfl

theorem encryptVTable_seed {σ : Type} (R : Rng σ) (c : VTableEncryption σ) (m : Mem)
    (obj : Nat) : (encryptVTable R c m obj).1.seed = c.seed := rfl

theorem encryptVTable_salt {σ : Type} (R : Rng σ) (c : VTableEncryption σ) (m : Mem)
    (obj : Nat) : (encryptVTable R c m obj).1.salt = c.salt := rfl

theorem decryptVTable_seed {σ : Type} (R : Rng σ) (c : VTableEncryption σ) (m : Mem)
    (obj : Nat) : (decryptVTable R c m obj).1.seed = c.seed := rfl

theorem decryptVTable_salt {σ : Type} (R : Rng σ) (c : VTableEncryption σ) (m : Mem)
    (obj : Nat) : (decryptVTable R c m obj).1.salt = c.salt := rfl

/-- The memory `encryptVTable` leaves depends on the cipher only through its
seed and salt. -/
theorem encryptVTable_mem_congr {σ : Type} (R : Rng σ) (c d : VTableEncryption σ)
    (hs : c.seed = d.seed) (ht : c.salt = d.salt) (m : Mem) (obj : Nat) :
    (encryptVTable R c m obj).2 = (encryptVTable R d m obj).2 := by
  simp only [encryptVTable, expandKey_salt]
  rw [hs, ht]
  exact transform_congr _ _ (expandKey_keys R c d _ _) _ _ _ _ _

theorem decryptVTable_mem_congr {σ : Type} (R : Rng σ) (c d : VTableEncryption σ)
    (hs : c.seed = d.seed) (ht : c.salt = d.salt) (m : Mem) (obj : Nat) :
    (decryptVTable R c m obj).2 = (decryptVTable R d m obj).2 := by
  simp only [decryptVTable, expandKey_salt]
  rw [hs, ht]
  exact transform_congr _ _ (expandKey_keys R c d _ _) _ _ _ _ _

/-- A cipher decrypts what a cipher of the same seed and salt encrypted. -/
theorem decryptVTable_encryptVTable {σ : Type} (R : Rng σ) (c d : VTableEncryption σ)
    (hs : c.seed = d.seed) (ht : c.salt = d.salt) (m : Mem) (obj : Nat)
    (hv : ValidWindow m obj ptrSize) :
    (decryptVTable R d (encryptVTable R c m obj).2 obj).2 = m := by
  rw [decryptVTable_mem_congr R d c hs.symm ht.symm]
  simp only [encryptVTable, decryptVTable, expandKey_salt]
  exact transform_dec_enc _ m obj ptrSize c.salt hv

/-- A cipher encrypts back what a cipher of the same seed and salt decrypted. -/
theorem encryptVTable_decryptVTable {σ : Type} (R : Rng σ) (c d : VTableEncryption σ)
    (hs : c.seed = d.seed) (ht : c.salt = d.salt) (m : Mem) (obj : Nat)
    (hv : ValidWindow m obj ptrSize) :
    (encryptVTable R d (decryptVTable R c m obj).2 obj).2 = m := by
  rw [encryptVTable_mem_congr R d c hs.symm ht.symm]
  simp only [encryptVTable, decryptVTable, expandKey_salt]
  exact transform_enc_dec _ m obj ptrSize c.salt hv

theorem encryptVTable_valid {σ : Type} (R : Rng σ) (c : VTableEncryption σ) (m : Mem)
    (obj : Nat) : ValidWindow (encryptVTable R c m obj).2 obj ptrSize :=
  transform_valid _ _ _ _ _ _

theorem decryptVTable_valid {σ : Type} (R : Rng σ) (c : VTableEncryption σ) (m : Mem)
    (obj : Nat) : ValidWindow (decryptVTable R c m obj).2 obj ptrSize :=
  transform_valid _ _ _ _ _ _

/-- The window `transform` leaves depends only on the window it finds. -/
theorem window_transform_congr {σ : Type} (c : VTableEncryption σ) (m m2 : Mem)
    (data size salt : Nat) (encrypt : Bool) (h : window m data size = window m2 data size) :
    window (transform c m data size salt encrypt) data size
      = window (transform c m2 data size salt encrypt) data size := by
  rw [window_eq_iff] at h ⊢
  intro i hi
  rw [transform_inside _ _ _ _ _ _ _ hi, transform_inside _ _ _ _ _ _ _ hi, h i hi]

theorem window_encryptVTable_congr {σ : Type} (R : Rng σ) (c : VTableEncryption σ)
    (m m2 : Mem) (obj : Nat) (h : window m obj ptrSize = window m2 obj ptrSize) :
    window (encryptVTable R c m obj).2 obj ptrSize
      = window (encryptVTable R c m2 obj).2 obj ptrSize :=
  window_transform_congr _ _ _ _ _ _ _ h

/-! ## The handle simulates the unguarded object -/

/-- One operation through the handle, on a memory that is the encryption of
`m`, does what the direct invocation does on `m`, and leaves the encryption of
the memory the direct invocation leaves. -/
theorem runOp_sim {σ ε : Type} (R : Rng σ) (obj : Nat) (op : Op ε)
    (s s2 : SecureVTable σ × Mem) (m : Mem)
    (hobj : s.1.obj = obj) (hmem : s.2 = (encryptVTable R s.1.enc m obj).2)
    (hv : ValidWindow m obj ptrSize) (hnw : op.NoWrite obj)
    (hrun : runOp R op s = some s2) :
    ∃ m2, directOp op m = some m2 ∧ window m2 obj ptrSize = window m obj ptrSize
      ∧ s2.1.obj = obj ∧ s2.1.enc.seed = s.1.enc.seed ∧ s2.1.enc.salt = s.1.enc.salt
      ∧ s2.2 = (encryptVTable R s2.1.enc m2 obj).2 := by
  obtain ⟨h, mc⟩ := s
  simp only at hobj hmem
  subst hobj
  have hd : (decryptObject R h.enc mc h.obj).2 = m := by
    rw [hmem]
    exact decryptVTable_encryptVTable R h.enc h.enc rfl rfl m h.obj hv
  cases op with
  | call f =>
    simp only [runOp, SecureVTable.call, hd] at hrun
    cases hf : f m with
    | mk out m2 =>
      rw [hf] at hrun
      cases out with
      | error x => simp at hrun
      | ok r =>
        simp only [Option.some.injEq] at hrun
        subst hrun
        refine ⟨m2, ?_, ?_, rfl, rfl, rfl, ?_⟩
        · simp [directOp, hf]
        · have h1 := hnw m
          rw [hf] at h1
          exact h1
        · exact encryptVTable_mem_congr R _ _ rfl rfl m2 h.obj
  | callVoid f =>
    simp only [runOp, SecureVTable.callVoid, hd] at hrun
    cases hf : f m with
    | mk out m2 =>
      rw [hf] at hrun
      cases out with
      | error x => simp at hrun
      | ok r =>
        simp only [Option.some.injEq] at hrun
        subst hrun
        refine ⟨m2, ?_, ?_, rfl, rfl, rfl, ?_⟩
        · simp [directOp, hf]
        · have h1 := hnw m
          rw [hf] at h1
          exact h1
        · exact encryptVTable_mem_congr R _ _ rfl rfl m2 h.obj
  | get =>
    simp only [runOp, SecureVTable.get, hd, Option.some.injEq] at hrun
    subst hrun
    refine ⟨m, rfl, rfl, rfl, rfl, rfl, ?_⟩
    exact encryptVTable_mem_congr R _ _ rfl rfl m h.obj

/-- The simulation over a sequence of operations. -/
theorem runOps_sim {σ ε : Type} (R : Rng σ) (obj : Nat) (ops : List (Op ε)) :
    ∀ (s s2 : SecureVTable σ × Mem) (m : Mem),
      s.1.obj = obj → s.2 = (encryptVTable R s.1.enc m obj).2 →
      ValidWindow m obj ptrSize → (∀ op, op ∈ ops → op.NoWrite obj) →
      runOps R ops s = some s2 →
      ∃ m2, runDirect ops m = some m2 ∧ window m2 obj ptrSize = window m obj ptrSize
        ∧ s2.1.obj = obj ∧ s2.1.enc.seed = s.1.enc.seed ∧ s2.1.enc.salt = s.1.enc.salt
        ∧ s2.2 = (encryptVTable R s2.1.enc m2 obj).2 := by
  induction ops with
  | nil =>
    intro s s2 m hobj hmem _ _ hrun
    simp only [runOps, Option.some.injEq] at hrun
    subst hrun
    exact ⟨m, rfl, rfl, hobj, rfl, rfl, hmem⟩
  | cons op ops ih =>
    intro s s2 m hobj hmem hv hnw hrun
    simp only [runOps] at hrun
    cases h1 : runOp R op s with
    | none => simp [h1] at hrun
    | some s1 =>
      rw [h1] at hrun
      simp only [Option.some_bind] at hrun
      obtain ⟨m1, hd1, hw1, hobj1, hseed1, hsalt1, hmem1⟩ :=
        runOp_sim R obj op s s1 m hobj hmem hv (hnw op (List.mem_cons_self _ _)) h1
      have hv1 : ValidWindow m1 obj ptrSize := validWindow_of_window_eq _ _ _ _ hw1 hv
      obtain ⟨m2, hd2, hw2, hobj2, hseed2, hsalt2, hmem2⟩ :=
        ih s1 s2 m1 hobj1 hmem1 hv1 (fun o ho => hnw o (List.mem_cons_of_mem _ ho)) hrun
      refine ⟨m2, ?_, hw2.trans hw1, hobj2, hseed2.trans hseed1, hsalt2.trans hsalt1, hmem2⟩
      simp only [runDirect, hd1, Option.some_bind, hd2]

/-- The state right after construction is the encryption of the original
memory under the handle's own cipher. -/
theorem new_sim {σ : Type} (R : Rng σ) (g0 : σ) (r1 r2 r3 obj : Nat) (m0 : Mem) :
    (SecureVTable.new R g0 r1 r2 r3 obj m0).1.obj = obj
      ∧ (SecureVTable.new R g0 r1 r2 r3 obj m0).2
          = (encryptVTable R (SecureVTable.new R g0 r1 r2 r3 obj m0).1.enc m0 obj).2 :=
  ⟨rfl, encryptVTable_mem_congr R _ _ rfl rfl m0 obj⟩

/-! ## Facts on the concrete instances -/

/-- The first three outputs of a default-constructed `std::mt19937_64`
(seed 5489). -/
theorem mt19937_64_first_outputs :
    (mt19937_64.next (mt19937_64.seed 5489)).1 = 14514284786278117030
      ∧ (mt19937_64.next (mt19937_64.next (mt19937_64.seed 5489)).2).1 = 4620546740167642908
      ∧ (mt19937_64.next (mt19937_64.next (mt19937_64.next (mt19937_64.seed 5489)).2).2).1
          = 13109570281517897720 := by
  decide

/-- The KeyState `encryptVTable` derives for seed 1 and salt 0, and the eight
key bytes of a pointer-width transform under it. -/
theorem demoKeyed_keys :
    demoKeyed.keys = (4880289456051310693, 9719581509408282990, 12043342175037389091)
      ∧ (List.range 8).map (getKeyByte demoKeyed) = [63, 110, 63, 195, 238, 250, 216, 102] := by
  decide

theorem demoMem_valid : ValidWindow demoMem 16 8 := by
  decide

theorem demoOps_noWrite : ∀ op, op ∈ demoOps → op.NoWrite 16 := by
  intro op hop
  simp only [demoOps, List.mem_cons, List.mem_singleton, List.not_mem_nil, or_false] at hop
  rcases hop with h | h | h
  · subst h
    intro m
    rw [window_eq_iff]
    intro i hi
    have hne : 16 + i ≠ 24 := by
      have : i < 8 := hi
      omega
    simp only [demoLower, Function.update_noteq hne]
  · subst h
    intro m
    rfl
  · subst h
    trivial

theorem demoOps_runs : (runOps mt19937_64 demoOps demoGuarded).isSome = true := by
  decide

/-- C1, at a concrete input: the eight-byte window `1, ..., 8` under the key
state derived from seed 1 and salt 0. -/
theorem transform_round_trip_witness :
    ValidWindow demoMem 16 8 ∧
      window (transform demoKeyed (transform demoKeyed demoMem 16 8 0 true) 16 8 0 false) 16 8
        = window demoMem 16 8 :=
  ⟨demoMem_valid, (transform_round_trip demoKeyed demoMem 16 8 0 demoMem_valid).1⟩

/-! ## Claims on `SecureVTable` -/

/-- C2. Ciphertext at rest: after any sequence of `call` (either overload) and
`get` operations that return normally and whose methods do not write the
window, the pointer-width window of the guarded object holds exactly the
bytes it held right after the handle was constructed. -/
theorem call_keeps_ciphertext {σ ε : Type} (R : Rng σ) (g0 : σ) (r1 r2 r3 obj : Nat)
    (m0 : Mem) (ops : List (Op ε)) (s2 : SecureVTable σ × Mem)
    (hnw : ∀ op, op ∈ ops → op.NoWrite obj)
    (hrun : runOps R ops (SecureVTable.new R g0 r1 r2 r3 obj m0) = some s2) :
    window s2.2 obj ptrSize = window (SecureVTable.new R g0 r1 r2 r3 obj m0).2 obj ptrSize := by
  have hvc : ValidWindow (SecureVTable.new R g0 r1 r2 r3 obj m0).2 obj ptrSize :=
    encryptVTable_valid R _ m0 obj
  have hmem := (encryptVTable_decryptVTable R (SecureVTable.new R g0 r1 r2 r3 obj m0).1.enc
    (SecureVTable.new R g0 r1 r2 r3 obj m0).1.enc rfl rfl _ obj hvc).symm
  obtain ⟨m2, _, hw, _, hseed, hsalt, hmem2⟩ :=
    runOps_sim R obj ops _ s2 _ rfl hmem (decryptVTable_valid R _ _ obj) hnw hrun
  rw [hmem2, window_encryptVTable_congr R _ _ _ obj hw,
    encryptVTable_mem_congr R _ _ hseed hsalt, ← hmem]

/-- C2, at a concrete input: the three operations of `demoOps` on the handle
built on `demoMem`. -/
theorem call_keeps_ciphertext_witness :
    ∃ s2, runOps mt19937_64 demoOps (SecureVTable.new mt19937_64 (mtSeed 5489) 0 1 0 16 demoMem)
        = some s2
      ∧ window s2.2 16 ptrSize
        = window (SecureVTable.new mt19937_64 (mtSeed 5489) 0 1 0 16 demoMem).2 16 ptrSize := by
  obtain ⟨s2, h⟩ := Option.isSome_iff_exists.mp demoOps_runs
  exact ⟨s2, h, call_keeps_ciphertext mt19937_64 (mtSeed 5489) 0 1 0 16 demoMem demoOps s2
    demoOps_noWrite h⟩

/-- C3. Lifecycle restoration: constructing a handle on an object whose window
holds the bytes `P`, running any sequence of normally-returning operations
whose methods do not write the window, and destroying the handle leaves the
window equal to `P`. -/
theorem lifecycle_restores {σ ε : Type} (R : Rng σ) (g0 : σ) (r1 r2 r3 obj : Nat)
    (m0 : Mem) (ops : List (Op ε)) (s2 : SecureVTable σ × Mem)
    (hP : ValidWindow m0 obj ptrSize)
    (hnw : ∀ op, op ∈ ops → op.NoWrite obj)
    (hrun : runOps R ops (SecureVTable.new R g0 r1 r2 r3 obj m0) = some s2) :
    window (SecureVTable.destroy R s2.1 s2.2) obj ptrSize = window m0 obj ptrSize := by
  obtain ⟨m2, _, hw, hobj, _, _, hmem2⟩ :=
    runOps_sim R obj ops _ s2 m0 rfl (new_sim R g0 r1 r2 r3 obj m0).2 hP hnw hrun
  have hv2 : ValidWindow m2 obj ptrSize := validWindow_of_window_eq _ _ _ _ hw hP
  unfold SecureVTable.destroy decryptObject
  rw [hobj, hmem2, decryptVTable_encryptVTable R _ _ rfl rfl m2 obj hv2]
  exact hw

/-- C3, at a concrete input: after `demoOps` and the destructor the window
holds `1, ..., 8` again. -/
theorem lifecycle_restores_witness :
    ∃ s2, runOps mt19937_64 demoOps (SecureVTable.new mt19937_64 (mtSeed 5489) 0 1 0 16 demoMem)
        = some s2
      ∧ window (SecureVTable.destroy mt19937_64 s2.1 s2.2) 16 ptrSize
        = [1, 2, 3, 4, 5, 6, 7, 8] := by
  obtain ⟨s2, h⟩ := Option.isSome_iff_exists.mp demoOps_runs
  exact ⟨s2, h, lifecycle_restores mt19937_64 (mtSeed 5489) 0 1 0 16 demoMem demoOps s2
    demoMem_valid demoOps_noWrite h⟩

/-- C4. Transparency: after any sequence of normally-returning operations
through the handle (whose methods do not write the window), `call` invokes `f`
on exactly the memory the unguarded object would have after the same
sequence of direct invocations, with the window equal to the original
plaintext window, and hands back the outcome of `f` unchanged. -/
theorem call_transparent {σ ε α : Type} (R : Rng σ) (g0 : σ) (r1 r2 r3 obj : Nat)
    (m0 : Mem) (ops : List (Op ε)) (s : SecureVTable σ × Mem) (f : Method ε α)
    (hP : ValidWindow m0 obj ptrSize)
    (hnw : ∀ op, op ∈ ops → op.NoWrite obj)
    (hrun : runOps R ops (SecureVTable.new R g0 r1 r2 r3 obj m0) = some s) :
    ∃ m, runDirect ops m0 = some m
      ∧ (decryptObject R s.1.enc s.2 s.1.obj).2 = m
      ∧ window m obj ptrSize = window m0 obj ptrSize
      ∧ (SecureVTable.call R s.1 f s.2).1 = (f m).1 := by
  obtain ⟨m, hd, hw, hobj, _, _, hmem⟩ :=
    runOps_sim R obj ops _ s m0 rfl (new_sim R g0 r1 r2 r3 obj m0).2 hP hnw hrun
  have hv : ValidWindow m obj ptrSize := validWindow_of_window_eq _ _ _ _ hw hP
  have hdec : (decryptObject R s.1.enc s.2 s.1.obj).2 = m := by
    unfold decryptObject
    rw [hobj, hmem, decryptVTable_encryptVTable R _ _ rfl rfl m obj hv]
  refine ⟨m, hd, hdec, hw, ?_⟩
  simp only [SecureVTable.call, hdec]
  cases hf : f m with
  | mk out m2 =>
    cases out with
    | error x => rfl
    | ok r => rfl

/-- C4, at a concrete input: reading the data byte through the handle after
`demoOps` gives what reading it on the unguarded object gives. -/
theorem call_transparent_witness :
    ∃ s, runOps mt19937_64 demoOps (SecureVTable.new mt19937_64 (mtSeed 5489) 0 1 0 16 demoMem)
        = some s
      ∧ ∃ m, runDirect demoOps demoMem = some m
        ∧ (decryptObject mt19937_64 s.1.enc s.2 s.1.obj).2 = m
        ∧ window m 16 ptrSize = window demoMem 16 ptrSize
        ∧ (SecureVTable.call mt19937_64 s.1 demoRead s.2).1 = (demoRead m).1 := by
  obtain ⟨s, h⟩ := Option.isSome_iff_exists.mp demoOps_runs
  exact ⟨s, h, call_transparent mt19937_64 (mtSeed 5489) 0 1 0 16 demoMem demoOps s demoRead
    demoMem_valid demoOps_noWrite h⟩

/-- C6. Key re-derivation is deterministic and history-independent: the
KeyState and generator state `expandKey(seed, len)` leaves do not depend on
the previous `k1, k2, k3` nor on the previous generator state; so
`encryptVTable` and `decryptVTable` of one cipher (one seed and salt), whatever
its history, derive the same KeyState and run `transform` under it. -/
theorem expandKey_history_independent {σ : Type} (R : Rng σ) (c : VTableEncryption σ)
    (j1 j2 j3 : Nat) (g : σ) (seed len : Nat) (m m2 : Mem) (obj obj2 : Nat) :
    (expandKey R { c with k1 := j1, k2 := j2, k3 := j3, gen := g } seed len).keys
        = (expandKey R c seed len).keys
      ∧ (expandKey R { c with k1 := j1, k2 := j2, k3 := j3, gen := g } seed len).gen
        = (expandKey R c seed len).gen
      ∧ (encryptVTable R { c with k1 := j1, k2 := j2, k3 := j3, gen := g } m obj).1.keys
        = (decryptVTable R c m2 obj2).1.keys
      ∧ (encryptVTable R { c with k1 := j1, k2 := j2, k3 := j3, gen := g } m obj).2
        = transform (expandKey R c c.seed ((ptrSize + c.salt) % W64)) m obj ptrSize c.salt true
      ∧ (decryptVTable R { c with k1 := j1, k2 := j2, k3 := j3, gen := g } m obj).2
        = transform (expandKey R c c.seed ((ptrSize + c.salt) % W64)) m obj ptrSize c.salt
            false :=
  ⟨rfl, rfl, rfl,
    transform_congr _ _ (expandKey_keys R _ c _ _) _ _ _ _ _,
    transform_congr _ _ (expandKey_keys R _ c _ _) _ _ _ _ _⟩

/-- C7, refuted at a concrete input: with `std::random_device` draws
`0, 124, 0` (seed 124, salt 0) the derived KeyState gives the key bytes
`251, 91, 165, 109, 155, 195, 145, 49`, and the window `fixedWindow` is left
unchanged by the encryption the constructor of the handle performs. -/
theorem wrap_fixed_window_counterexample :
    (SecureVTable.new mt19937_64 (mtSeed 5489) 0 124 0 16 (memOf 16 fixedWindow)).1.enc.seed
        = 124
      ∧ (SecureVTable.new mt19937_64 (mtSeed 5489) 0 124 0 16 (memOf 16 fixedWindow)).1.enc.salt
        = 0
      ∧ (SecureVTable.new mt19937_64 (mtSeed 5489) 0 124 0 16 (memOf 16 fixedWindow)).1.enc.keys
        = (11271682068581321984, 13785736862073951489, 1219461784704284265)
      ∧ (List.range 8).map (getKeyByte
          (SecureVTable.new mt19937_64 (mtSeed 5489) 0 124 0 16 (memOf 16 fixedWindow)).1.enc)
        = [251, 91, 165, 109, 155, 195, 145, 49]
      ∧ window (memOf 16 fixedWindow) 16 ptrSize = [30, 65, 120, 48, 48, 120, 40, 119]
      ∧ window (SecureVTable.new mt19937_64 (mtSeed 5489) 0 124 0 16 (memOf 16 fixedWindow)).2
          16 ptrSize = [30, 65, 120, 48, 48, 120, 40, 119] := by
  decide

/-- C7, as amended: the window right after wrapping differs from the plaintext
window exactly when some byte `b` of it is not a fixed point of its keyed map,
that is `rotl8(b xor kb, kb & 7) xor kb2 ≠ b` for the two key bytes `kb`, `kb2`
of its index. -/
theorem wrap_changes_window_iff {σ : Type} (R : Rng σ) (g0 : σ) (r1 r2 r3 obj : Nat)
    (m0 : Mem) (hP : ValidWindow m0 obj ptrSize) :
    window (SecureVTable.new R g0 r1 r2 r3 obj m0).2 obj ptrSize ≠ window m0 obj ptrSize
      ↔ ∃ i, i < ptrSize ∧
          rotl8 (m0 (obj + i) ^^^
                getKeyByte (SecureVTable.new R g0 r1 r2 r3 obj m0).1.enc
                  ((i + (SecureVTable.new R g0 r1 r2 r3 obj m0).1.enc.salt) % W64))
              (getKeyByte (SecureVTable.new R g0 r1 r2 r3 obj m0).1.enc
                  ((i + (SecureVTable.new R g0 r1 r2 r3 obj m0).1.enc.salt) % W64) &&& 7)
            ^^^ getKeyByte (SecureVTable.new R g0 r1 r2 r3 obj m0).1.enc
                  ((ptrSize - i - 1 + (SecureVTable.new R g0 r1 r2 r3 obj m0).1.enc.salt) % W64)
            ≠ m0 (obj + i) := by
  have hbyte : ∀ i, i < ptrSize →
      (SecureVTable.new R g0 r1 r2 r3 obj m0).2 (obj + i)
        = rotl8 (m0 (obj + i) ^^^
                getKeyByte (SecureVTable.new R g0 r1 r2 r3 obj m0).1.enc
                  ((i + (SecureVTable.new R g0 r1 r2 r3 obj m0).1.enc.salt) % W64))
              (getKeyByte (SecureVTable.new R g0 r1 r2 r3 obj m0).1.enc
                  ((i + (SecureVTable.new R g0 r1 r2 r3 obj m0).1.enc.salt) % W64) &&& 7)
            ^^^ getKeyByte (SecureVTable.new R g0 r1 r2 r3 obj m0).1.enc
                  ((ptrSize - i - 1
                    + (SecureVTable.new R g0 r1 r2 r3 obj m0).1.enc.salt) % W64) := by
    intro i hi
    have h1 : (SecureVTable.new R g0 r1 r2 r3 obj m0).2 (obj + i)
        = transformByte (SecureVTable.new R g0 r1 r2 r3 obj m0).1.enc ptrSize
            (SecureVTable.new R g0 r1 r2 r3 obj m0).1.enc.salt true i (m0 (obj + i)) :=
      transform_inside _ m0 obj ptrSize _ true i hi
    rw [h1]
    simp only [transformByte, if_true]
    rw [xor_byte_mod (hP i hi) (getKeyByte_lt _ _),
      xor_byte_mod (rotl8_lt _ _) (getKeyByte_lt _ _)]
  rw [Ne, window_eq_iff]
  constructor
  · intro h
    by_contra hcon
    apply h
    intro i hi
    rw [hbyte i hi]
    by_contra hne
    exact hcon ⟨i, hi, hne⟩
  · rintro ⟨i, hi, hne⟩ hall
    apply hne
    rw [← hbyte i hi]
    exact hall i hi

/-- C7 as amended, at a concrete input: the handle on `demoMem` changes the
window, and byte 0 is not a fixed point. -/
theorem wrap_changes_window_iff_witness :
    ValidWindow demoMem 16 ptrSize
      ∧ window (SecureVTable.new mt19937_64 (mtSeed 5489) 0 1 0 16 demoMem).2 16 ptrSize
          ≠ window demoMem 16 ptrSize :=
  ⟨demoMem_valid,
    (wrap_changes_window_iff mt19937_64 (mtSeed 5489) 0 1 0 16 demoMem demoMem_valid).mpr
      ⟨0, by decide, by decide⟩⟩

theorem alternated_tail (b : Bool) (rest : List Bool) (h : alternated (b :: rest) = true) :
    alternated rest = true := by
  cases rest with
  | nil => rfl
  | cons x r =>
    simp only [alternated, Bool.and_eq_true] at h
    exact h.2

/-- An alternated sequence of even length restores a byte window. -/
theorem applySeq_alternated {σ : Type} (c : VTableEncryption σ) (data size salt : Nat)
    (n : Nat) :
    ∀ (ops : List Bool) (m : Mem), ops.length = 2 * n → alternated ops = true →
      ValidWindow m data size → applySeq c data size salt ops m = m := by
  induction n with
  | zero =>
    intro ops m hlen _ _
    have : ops = [] := List.length_eq_zero.mp (by omega)
    subst this
    rfl
  | succ n ih =>
    intro ops m hlen halt hv
    match ops, hlen, halt with
    | a :: b :: rest, hlen, halt =>
      have hrest : rest.length = 2 * n := by
        simp only [List.length_cons] at hlen
        omega
      have halt2 := halt
      simp only [alternated, Bool.and_eq_true] at halt2
      have hstep : transform c (transform c m data size salt a) data size salt b = m := by
        cases a <;> cases b
        · simp at halt2
        · exact transform_enc_dec c m data size salt hv
        · exact transform_dec_enc c m data size salt hv
        · simp at halt2
      simp only [applySeq]
      rw [hstep]
      exact ih rest m hrest (alternated_tail b rest halt2.2) hv

/-- C8, refuted at a concrete input: its closing clause fails. Under the
KeyState of seed 1, salt 0, the sequence encrypt, encrypt, decrypt, decrypt is
not alternated, and it brings the window `1, ..., 8` back, although the two
encrypts alone have changed it. -/
theorem alternation_counterexample :
    alternated [true, true, false, false] = false
      ∧ window (applySeq demoKeyed 16 ptrSize 0 [true, true] demoMem) 16 ptrSize
          ≠ window demoMem 16 ptrSize
      ∧ window (applySeq demoKeyed 16 ptrSize 0 [true, true, false, false] demoMem) 16 ptrSize
          = window demoMem 16 ptrSize := by
  decide

/-- C8, as amended. The encrypt direction is not its own inverse: there are a
KeyState, a salt and a pointer-width window such that two encrypts in a row
give a window different from the original, and one decrypt afterwards does
not give the original either. The two directions undo each other when
alternated (every alternated sequence of even length restores a byte window),
but not only then: encrypt, encrypt, decrypt, decrypt, which is not alternated,
restores it too. -/
theorem encrypt_twice_not_identity {σ : Type} (c : VTableEncryption σ) (m : Mem)
    (data N salt : Nat) (ops : List Bool) (hW : ValidWindow m data N)
    (halt : alternated ops = true) (heven : ops.length % 2 = 0) :
    (∃ (k : VTableEncryption (List Nat)) (s d : Nat) (w : Mem),
        ValidWindow w d ptrSize
          ∧ window (transform k (transform k w d ptrSize s true) d ptrSize s true)
              d ptrSize ≠ window w d ptrSize
          ∧ window (transform k
                (transform k (transform k w d ptrSize s true) d ptrSize s true)
                d ptrSize s false) d ptrSize ≠ window w d ptrSize)
      ∧ applySeq c data N salt ops m = m
      ∧ alternated [true, true, false, false] = false
      ∧ applySeq c data N salt [true, true, false, false] m = m := by
  refine ⟨⟨demoKeyed, 0, 16, demoMem, demoMem_valid, by decide, by decide⟩, ?_, rfl, ?_⟩
  · exact applySeq_alternated c data N salt (ops.length / 2) ops m (by omega) halt hW
  · simp only [applySeq]
    rw [transform_dec_enc c _ data N salt (transform_valid c m data N salt true),
      transform_dec_enc c m data N salt hW]

/-- C8 as amended, at a concrete input: under the KeyState of seed 1, salt 0,
the alternated sequence encrypt, decrypt, encrypt, decrypt restores
`demoMem`. -/
theorem encrypt_twice_not_identity_witness :
    ValidWindow demoMem 16 ptrSize
      ∧ alternated [true, false, true, false] = true
      ∧ applySeq demoKeyed 16 ptrSize 0 [true, false, true, false] demoMem = demoMem :=
  ⟨demoMem_valid, rfl,
    (encrypt_twice_not_identity demoKeyed demoMem 16 ptrSize 0 [true, false, true, false]
      demoMem_valid rfl rfl).2.1⟩

theorem encryptTimes_succ {σ : Type} (R : Rng σ) (obj k : Nat) (s : VTableEncryption σ × Mem) :
    encryptTimes R obj (k + 1) s
      = encryptVTable R (encryptTimes R obj k s).1 (encryptTimes R obj k s).2 obj := by
  unfold encryptTimes
  rw [Function.iterate_succ_apply']
  rfl

theorem decryptTimes_succ {σ : Type} (R : Rng σ) (obj k : Nat) (s : VTableEncryption σ × Mem) :
    decryptTimes R obj (k + 1) s
      = decryptVTable R (decryptTimes R obj k s).1 (decryptTimes R obj k s).2 obj := by
  unfold decryptTimes
  rw [Function.iterate_succ_apply']
  rfl

/-- Repeated encryption keeps seed and salt, and acts on the memory as the
repeated memory transformation of the initial cipher. -/
theorem encryptTimes_spec {σ : Type} (R : Rng σ) (obj : Nat) (c : VTableEncryption σ)
    (m : Mem) (k : Nat) :
    (encryptTimes R obj k (c, m)).1.seed = c.seed
      ∧ (encryptTimes R obj k (c, m)).1.salt = c.salt
      ∧ (encryptTimes R obj k (c, m)).2 = (fun x => (encryptVTable R c x obj).2)^[k] m := by
  induction k with
  | zero => exact ⟨rfl, rfl, rfl⟩
  | succ k ih =>
    obtain ⟨h1, h2, h3⟩ := ih
    rw [encryptTimes_succ, Function.iterate_succ_apply']
    refine ⟨h1, h2, ?_⟩
    rw [encryptVTable_mem_congr R _ c h1 h2, h3]

theorem decryptTimes_spec {σ : Type} (R : Rng σ) (obj : Nat) (c : VTableEncryption σ)
    (m : Mem) (k : Nat) :
    (decryptTimes R obj k (c, m)).1.seed = c.seed
      ∧ (decryptTimes R obj k (c, m)).1.salt = c.salt
      ∧ (decryptTimes R obj k (c, m)).2 = (fun x => (decryptVTable R c x obj).2)^[k] m := by
  induction k with
  | zero => exact ⟨rfl, rfl, rfl⟩
  | succ k ih =>
    obtain ⟨h1, h2, h3⟩ := ih
    rw [decryptTimes_succ, Function.iterate_succ_apply']
    refine ⟨h1, h2, ?_⟩
    rw [decryptVTable_mem_congr R _ c h1 h2, h3]

theorem iterate_encrypt_valid {σ : Type} (R : Rng σ) (obj : Nat) (c : VTableEncryption σ)
    (k : Nat) (m : Mem) (hv : ValidWindow m obj ptrSize) :
    ValidWindow ((fun x => (encryptVTable R c x obj).2)^[k] m) obj ptrSize := by
  cases k with
  | zero => exact hv
  | succ k =>
    rw [Function.iterate_succ_apply']
    exact encryptVTable_valid R c _ obj

theorem iterate_decrypt_valid {σ : Type} (R : Rng σ) (obj : Nat) (c : VTableEncryption σ)
    (k : Nat) (m : Mem) (hv : ValidWindow m obj ptrSize) :
    ValidWindow ((fun x => (decryptVTable R c x obj).2)^[k] m) obj ptrSize := by
  cases k with
  | zero => exact hv
  | succ k =>
    rw [Function.iterate_succ_apply']
    exact decryptVTable_valid R c _ obj

theorem iterate_decrypt_encrypt {σ : Type} (R : Rng σ) (obj : Nat) (c : VTableEncryption σ)
    (k : Nat) (m : Mem) (hv : ValidWindow m obj ptrSize) :
    (fun x => (decryptVTable R c x obj).2)^[k]
      ((fun x => (encryptVTable R c x obj).2)^[k] m) = m := by
  induction k with
  | zero => rfl
  | succ k ih =>
    rw [Function.iterate_succ_apply' (fun x => (encryptVTable R c x obj).2),
      Function.iterate_succ_apply]
    rw [decryptVTable_encryptVTable R c c rfl rfl _ obj (iterate_encrypt_valid R obj c k m hv)]
    exact ih

theorem iterate_encrypt_decrypt {σ : Type} (R : Rng σ) (obj : Nat) (c : VTableEncryption σ)
    (k : Nat) (m : Mem) (hv : ValidWindow m obj ptrSize) :
    (fun x => (encryptVTable R c x obj).2)^[k]
      ((fun x => (decryptVTable R c x obj).2)^[k] m) = m := by
  induction k with
  | zero => rfl
  | succ k ih =>
    rw [Function.iterate_succ_apply' (fun x => (decryptVTable R c x obj).2),
      Function.iterate_succ_apply]
    rw [encryptVTable_decryptVTable R c c rfl rfl _ obj (iterate_decrypt_valid R obj c k m hv)]
    exact ih

/-- C9, refuted at a concrete input: after two encrypts in a row the window
differs from the original, and two decrypts of the same cipher bring back the
original bytes `1, ..., 8`. -/
theorem double_encrypt_counterexample :
    window (encryptTimes mt19937_64 16 2 (demoCipher, demoMem)).2 16 ptrSize
        ≠ window demoMem 16 ptrSize
      ∧ window (decryptTimes mt19937_64 16 2
          (encryptTimes mt19937_64 16 2 (demoCipher, demoMem))).2 16 ptrSize
        = window demoMem 16 ptrSize := by
  decide

/-- C9, as amended: encrypting `k` times in a row is undone by decrypting `k`
times in a row with the same cipher, and decrypting `k` times by encrypting
`k` times; after two encrypts a single decrypt gives the once-encrypted
memory, and after two decrypts a single encrypt the once-decrypted memory, so
a single opposite operation restores the original exactly when the original is
a fixed point of the operation that was applied twice. -/
theorem encrypt_times_reversible {σ : Type} (R : Rng σ) (c : VTableEncryption σ) (m : Mem)
    (obj k : Nat) (hP : ValidWindow m obj ptrSize) :
    (decryptTimes R obj k (encryptTimes R obj k (c, m))).2 = m
      ∧ (encryptTimes R obj k (decryptTimes R obj k (c, m))).2 = m
      ∧ (decryptTimes R obj 1 (encryptTimes R obj 2 (c, m))).2
          = (encryptTimes R obj 1 (c, m)).2
      ∧ (encryptTimes R obj 1 (decryptTimes R obj 2 (c, m))).2
          = (decryptTimes R obj 1 (c, m)).2
      ∧ ((decryptTimes R obj 1 (encryptTimes R obj 2 (c, m))).2 = m
          ↔ (encryptTimes R obj 1 (c, m)).2 = m)
      ∧ ((encryptTimes R obj 1 (decryptTimes R obj 2 (c, m))).2 = m
          ↔ (decryptTimes R obj 1 (c, m)).2 = m) := by
  have hE := encryptTimes_spec R obj c m
  have hD := decryptTimes_spec R obj c m
  have h3 : (decryptTimes R obj 1 (encryptTimes R obj 2 (c, m))).2
      = (encryptTimes R obj 1 (c, m)).2 :=
    decryptVTable_encryptVTable R _ _ rfl rfl _ obj (encryptVTable_valid R c m obj)
  have h4 : (encryptTimes R obj 1 (decryptTimes R obj 2 (c, m))).2
      = (decryptTimes R obj 1 (c, m)).2 :=
    encryptVTable_decryptVTable R _ _ rfl rfl _ obj (decryptVTable_valid R c m obj)
  refine ⟨?_, ?_, h3, h4, by rw [h3], by rw [h4]⟩
  · obtain ⟨h1, h2, h3⟩ := hE k
    obtain ⟨_, _, h4⟩ := decryptTimes_spec R obj (encryptTimes R obj k (c, m)).1
      (encryptTimes R obj k (c, m)).2 k
    rw [Prod.mk.eta] at h4
    rw [h4, h3]
    have hfun : (fun x => (decryptVTable R (encryptTimes R obj k (c, m)).1 x obj).2)
        = (fun x => (decryptVTable R c x obj).2) := by
      funext x
      exact decryptVTable_mem_congr R _ c h1 h2 x obj
    rw [hfun]
    exact iterate_decrypt_encrypt R obj c k m hP
  · obtain ⟨h1, h2, h3⟩ := hD k
    obtain ⟨_, _, h4⟩ := encryptTimes_spec R obj (decryptTimes R obj k (c, m)).1
      (decryptTimes R obj k (c, m)).2 k
    rw [Prod.mk.eta] at h4
    rw [h4, h3]
    have hfun : (fun x => (encryptVTable R (decryptTimes R obj k (c, m)).1 x obj).2)
        = (fun x => (encryptVTable R c x obj).2) := by
      funext x
      exact encryptVTable_mem_congr R _ c h1 h2 x obj
    rw [hfun]
    exact iterate_encrypt_decrypt R obj c k m hP

/-- C9 as amended, at a concrete input: three encrypts then three decrypts of
`demoCipher` on `demoMem` restore it; one decrypt after two encrypts does not
restore the window `1, ..., 8`, but does restore the window `fixedWindow` of
the cipher of seed 124, which encryption maps to itself. -/
theorem encrypt_times_reversible_witness :
    ValidWindow demoMem 16 ptrSize
      ∧ (decryptTimes mt19937_64 16 3 (encryptTimes mt19937_64 16 3 (demoCipher, demoMem))).2
          = demoMem
      ∧ window (decryptTimes mt19937_64 16 1 (encryptTimes mt19937_64 16 2
          (demoCipher, demoMem))).2 16 ptrSize ≠ window demoMem 16 ptrSize
      ∧ window (decryptTimes mt19937_64 16 1 (encryptTimes mt19937_64 16 2
          (VTableEncryption.new mt19937_64 (mtSeed 5489) 0 124 0, memOf 16 fixedWindow))).2
          16 ptrSize = fixedWindow :=
  ⟨demoMem_valid, (encrypt_times_reversible mt19937_64 demoCipher demoMem 16 3 demoMem_valid).1,
    by decide, by decide⟩

/-! ## Frame -/

/-- C10. Frame: `encryptObject` and `decryptObject` of one cipher on one object
leave the seed and salt of that cipher unchanged, leave every other cipher
instance unchanged, leave every byte outside the pointer-width window of the
object unchanged, and so leave the window of any other (disjoint) object
unchanged. -/
theorem encrypt_decrypt_frame {σ : Type} (R : Rng σ) (w : World σ) (id obj j a obj2 : Nat)
    (hj : j ≠ id) (ha : a < obj ∨ obj + ptrSize ≤ a)
    (hd : obj2 + ptrSize ≤ obj ∨ obj + ptrSize ≤ obj2) :
    ((World.encryptObject R w id obj).ciphers id).seed = (w.ciphers id).seed
      ∧ ((World.encryptObject R w id obj).ciphers id).salt = (w.ciphers id).salt
      ∧ (World.encryptObject R w id obj).ciphers j = w.ciphers j
      ∧ (World.encryptObject R w id obj).mem a = w.mem a
      ∧ window (World.encryptObject R w id obj).mem obj2 ptrSize = window w.mem obj2 ptrSize
      ∧ ((World.decryptObject R w id obj).ciphers id).seed = (w.ciphers id).seed
      ∧ ((World.decryptObject R w id obj).ciphers id).salt = (w.ciphers id).salt
      ∧ (World.decryptObject R w id obj).ciphers j = w.ciphers j
      ∧ (World.decryptObject R w id obj).mem a = w.mem a
      ∧ window (World.decryptObject R w id obj).mem obj2 ptrSize
          = window w.mem obj2 ptrSize := by
  have hout : ∀ (e : Bool) (c : VTableEncryption σ) (i : Nat), i < ptrSize →
      transform c w.mem obj ptrSize (w.ciphers id).salt e (obj2 + i) = w.mem (obj2 + i) := by
    intro e c i hi
    exact transform_outside c w.mem obj ptrSize _ e (obj2 + i) (by omega)
  refine ⟨?_, ?_, ?_, ?_, ?_, ?_, ?_, ?_, ?_, ?_⟩
  · simp only [World.encryptObject, Function.update_same]
    rfl
  · simp only [World.encryptObject, Function.update_same]
    rfl
  · simp only [World.encryptObject, Function.update_noteq hj]
  · exact transform_outside _ w.mem obj ptrSize _ true a ha
  · rw [window_eq_iff]
    intro i hi
    exact hout true _ i hi
  · simp only [World.decryptObject, Function.update_same]
    rfl
  · simp only [World.decryptObject, Function.update_same]
    rfl
  · simp only [World.decryptObject, Function.update_noteq hj]
  · exact transform_outside _ w.mem obj ptrSize _ false a ha
  · rw [window_eq_iff]
    intro i hi
    exact hout false _ i hi

/-- C10, at a concrete input: cipher 0 encrypting the object at address 16 of
`demoWorld` leaves cipher 1, the data byte at address 24 and the window of the
object at address 32 unchanged. -/
theorem encrypt_decrypt_frame_witness :
    (World.encryptObject mt19937_64 demoWorld 0 16).ciphers 1 = demoWorld.ciphers 1
      ∧ (World.encryptObject mt19937_64 demoWorld 0 16).mem 24 = 100
      ∧ window (World.encryptObject mt19937_64 demoWorld 0 16).mem 32 ptrSize
          = [9, 10, 11, 12, 13, 14, 15, 16] :=
  have h := encrypt_decrypt_frame mt19937_64 demoWorld 0 16 1 24 32 (by decide) (by decide)
    (by decide)
  ⟨h.2.2.1, h.2.2.2.1, h.2.2.2.2.1⟩

/-! ## The per-byte form of `transform` -/

theorem and7_eq_mod8 (k : Nat) : k &&& 7 = k % 8 :=
  Nat.and_pow_two_sub_one_eq_mod k 3

theorem rotl8_mod8 (x k : Nat) : rotl8 x (k % 8) = rotl8 x k := by
  simp only [rotl8, ← and7_eq_mod8, Nat.and_assoc, Nat.and_self]

theorem rotr8_mod8 (x k : Nat) : rotr8 x (k % 8) = rotr8 x k := by
  simp only [rotr8, ← and7_eq_mod8, Nat.and_assoc, Nat.and_self]

/-- The two key bytes `transformByte` reads are those at `fwdPos` and
`revPos`. -/
theorem transformByte_pos {σ : Type} (c : VTableEncryption σ) (size salt i b : Nat) :
    transformByte c size salt true i b
        = (rotl8 ((b ^^^ getKeyByte c (fwdPos salt i)) % 256)
            (getKeyByte c (fwdPos salt i) &&& 7) ^^^ getKeyByte c (revPos size salt i)) % 256
      ∧ transformByte c size salt false i b
        = (rotr8 ((b ^^^ getKeyByte c (revPos size salt i)) % 256)
            (getKeyByte c (fwdPos salt i) &&& 7) ^^^ getKeyByte c (fwdPos salt i)) % 256 :=
  ⟨rfl, rfl⟩

/-- On a byte, the encrypt branch is `rotl8(b xor kb, kb mod 8) xor kb2`. -/
theorem transformByte_enc_formula {σ : Type} (c : VTableEncryption σ) (size salt i b : Nat)
    (hb : b < 256) :
    transformByte c size salt true i b
      = rotl8 (b ^^^ getKeyByte c ((i + salt) % W64)) (getKeyByte c ((i + salt) % W64) % 8)
          ^^^ getKeyByte c ((size - i - 1 + salt) % W64) := by
  simp only [transformByte, if_true]
  rw [xor_byte_mod hb (getKeyByte_lt _ _), xor_byte_mod (rotl8_lt _ _) (getKeyByte_lt _ _),
    and7_eq_mod8]

/-- On a byte, the decrypt branch is `rotr8(b xor kb2, kb mod 8) xor kb`. -/
theorem transformByte_dec_formula {σ : Type} (c : VTableEncryption σ) (size salt i b : Nat)
    (hb : b < 256) :
    transformByte c size salt false i b
      = rotr8 (b ^^^ getKeyByte c ((size - i - 1 + salt) % W64))
            (getKeyByte c ((i + salt) % W64) % 8)
          ^^^ getKeyByte c ((i + salt) % W64) := by
  simp only [transformByte, Bool.false_eq_true, if_false]
  rw [xor_byte_mod hb (getKeyByte_lt _ _), xor_byte_mod (rotr8_lt _ _) (getKeyByte_lt _ _),
    and7_eq_mod8]

/-- C11. Per-byte definition of `transform`: at every index `i < N` of a byte
window, the encrypt output is `rotl8(W[i] xor kb, kb mod 8) xor kb2` and the
decrypt output is `rotr8(W[i] xor kb2, kb mod 8) xor kb`, with
`kb = getKeyByte(i + salt)` and `kb2 = getKeyByte(N - i - 1 + salt)` (index
arithmetic in `size_t`); the window keeps its length, and `N - i - 1` does not
underflow. -/
theorem transform_per_byte {σ : Type} (c : VTableEncryption σ) (m : Mem)
    (data N salt i : Nat) (hW : ValidWindow m data N) (hi : i < N) :
    transform c m data N salt true (data + i)
        = rotl8 (m (data + i) ^^^ getKeyByte c ((i + salt) % W64))
              (getKeyByte c ((i + salt) % W64) % 8)
            ^^^ getKeyByte c ((N - i - 1 + salt) % W64)
      ∧ transform c m data N salt false (data + i)
        = rotr8 (m (data + i) ^^^ getKeyByte c ((N - i - 1 + salt) % W64))
              (getKeyByte c ((i + salt) % W64) % 8)
            ^^^ getKeyByte c ((i + salt) % W64)
      ∧ (window (transform c m data N salt true) data N).length = (window m data N).length
      ∧ (window (transform c m data N salt false) data N).length = (window m data N).length
      ∧ N - i - 1 + 1 + i = N := by
  refine ⟨?_, ?_, ?_, ?_, by omega⟩
  · rw [transform_inside c m data N salt true i hi]
    exact transformByte_enc_formula c N salt i _ (hW i hi)
  · rw [transform_inside c m data N salt false i hi]
    exact transformByte_dec_formula c N salt i _ (hW i hi)
  · rw [window_length, window_length]
  · rw [window_length, window_length]

/-- C11, at a concrete input: byte 0 of the window `1, ..., 8` under the key
bytes `63, ..., 102`: `rotl8(1 xor 63, 7) xor 102 = 121`. -/
theorem transform_per_byte_witness :
    transform demoKeyed demoMem 16 8 0 true (16 + 0)
        = rotl8 (demoMem (16 + 0) ^^^ getKeyByte demoKeyed ((0 + 0) % W64))
              (getKeyByte demoKeyed ((0 + 0) % W64) % 8)
            ^^^ getKeyByte demoKeyed ((8 - 0 - 1 + 0) % W64)
      ∧ transform demoKeyed demoMem 16 8 0 true (16 + 0) = 121 :=
  ⟨(transform_per_byte demoKeyed demoMem 16 8 0 0 demoMem_valid (by decide)).1, by decide⟩

/-! ## Keystream positions of one transform -/

theorem fwdPos_eq (salt i N : Nat) (hi : i < N) (hno : salt + N < W64) :
    fwdPos salt i = i + salt := by
  unfold fwdPos W64 at *
  omega

theorem revPos_eq (salt i N : Nat) (hi : i < N) (hno : salt + N < W64) :
    revPos N salt i = N - i - 1 + salt := by
  unfold revPos W64 at *
  omega

/-- C16, refuted at a concrete input: for the window size `N = 3` and salt 0,
the middle index `i = 1` reads one keystream position twice (position 1), and
its two key bytes are the same byte. -/
theorem key_positions_counterexample :
    (1 : Nat) < 3
      ∧ fwdPos 0 1 = 1
      ∧ revPos 3 0 1 = 1
      ∧ getKeyByte demoKeyed (fwdPos 0 1) = getKeyByte demoKeyed (revPos 3 0 1) := by
  decide

/-- C16, as amended: for a window size `N` and salt whose sum fits `size_t`
and an index `i < N`, the two keystream positions of byte `i` (those
`transformByte` reads) coincide exactly when `i` is the middle index of an odd
`N`, `2 * i + 1 = N`; for every even `N`, such as the pointer widths 4 and 8,
they are different positions. -/
theorem key_positions_distinct_iff {σ : Type} (c : VTableEncryption σ) (N salt i b : Nat)
    (hi : i < N) (hno : salt + N < W64) :
    transformByte c N salt true i b
        = (rotl8 ((b ^^^ getKeyByte c (fwdPos salt i)) % 256)
            (getKeyByte c (fwdPos salt i) &&& 7) ^^^ getKeyByte c (revPos N salt i)) % 256
      ∧ (fwdPos salt i = revPos N salt i ↔ 2 * i + 1 = N)
      ∧ (N % 2 = 0 → fwdPos salt i ≠ revPos N salt i) := by
  refine ⟨(transformByte_pos c N salt i b).1, ?_, ?_⟩
  · rw [fwdPos_eq salt i N hi hno, revPos_eq salt i N hi hno]
    omega
  · rw [fwdPos_eq salt i N hi hno, revPos_eq salt i N hi hno]
    omega

/-- C16 as amended, at a concrete input: pointer width 8, salt 0, index 3
reads positions 3 and 4. -/
theorem key_positions_distinct_iff_witness :
    fwdPos 0 3 ≠ revPos 8 0 3 :=
  (key_positions_distinct_iff demoKeyed 8 0 3 0 (by decide) (by decide)).2.2 (by decide)

theorem keyBytes_getD {σ : Type} (c : VTableEncryption σ) (salt size j : Nat)
    (hj : j < size) : (keyBytes c salt size).getD j 0 = getKeyByte c ((j + salt) % W64) := by
  unfold keyBytes
  rw [List.getD_eq_getElem _ _ (by simpa using hj)]
  simp

/-- C19. The reverse-indexed key byte is a mirrored reuse of the forward one.
With `keyBytes` the first key bytes `getKeyByte(j + salt)` of the bytes
`j = 0 .. N - 1` (positions `salt .. salt + N - 1` when `salt + N` fits
`size_t`), `transform` computes byte `i` of a byte window from entry `i` and,
as its second key byte, entry `N - 1 - i` of that list:
`rotl8(W[i] xor kb[i], kb[i] mod 8) xor kb[N-1-i]` when encrypting and
`rotr8(W[i] xor kb[N-1-i], kb[i] mod 8) xor kb[i]` when decrypting; so one
transform reads the cipher only through these `N` key bytes. -/
theorem reverse_key_byte_mirrors {σ τ : Type} (c : VTableEncryption σ)
    (d : VTableEncryption τ) (m : Mem) (data N salt i : Nat) (hi : i < N)
    (hno : salt + N < W64) (hW : ValidWindow m data N)
    (hkeys : keyBytes c salt N = keyBytes d salt N) :
    transform c m data N salt true (data + i)
        = rotl8 (m (data + i) ^^^ (keyBytes c salt N).getD i 0)
              ((keyBytes c salt N).getD i 0 % 8)
            ^^^ (keyBytes c salt N).getD (N - 1 - i) 0
      ∧ transform c m data N salt false (data + i)
        = rotr8 (m (data + i) ^^^ (keyBytes c salt N).getD (N - 1 - i) 0)
              ((keyBytes c salt N).getD i 0 % 8)
            ^^^ (keyBytes c salt N).getD i 0
      ∧ getKeyByte c ((N - i - 1 + salt) % W64) = (keyBytes c salt N).getD (N - 1 - i) 0
      ∧ (keyBytes c salt N).getD i 0 = getKeyByte c (salt + i)
      ∧ (keyBytes c salt N).length = N
      ∧ revPos N salt i = fwdPos salt (N - 1 - i)
      ∧ (salt ≤ fwdPos salt i ∧ fwdPos salt i < salt + N)
      ∧ (salt ≤ revPos N salt i ∧ revPos N salt i < salt + N)
      ∧ (∀ (w : Mem) (a : Nat) (encrypt : Bool),
          transform c w a N salt encrypt = transform d w a N salt encrypt) := by
  have hsub : N - i - 1 = N - 1 - i := by omega
  have hmir : N - 1 - i < N := by omega
  have hf : ∀ j, j < N → salt ≤ fwdPos salt j ∧ fwdPos salt j < salt + N := by
    intro j hj
    rw [fwdPos_eq salt j N hj hno]
    omega
  have hr : ∀ j, j < N → salt ≤ revPos N salt j ∧ revPos N salt j < salt + N := by
    intro j hj
    rw [revPos_eq salt j N hj hno]
    omega
  have hk1 := keyBytes_getD c salt N i hi
  have hk2 := keyBytes_getD c salt N (N - 1 - i) hmir
  have hper := transform_inside c m data N salt
  refine ⟨?_, ?_, ?_, ?_, ?_, ?_, hf i hi, hr i hi, ?_⟩
  · rw [hper true i hi, transformByte_enc_formula c N salt i _ (hW i hi), hk1, hk2, hsub]
  · rw [hper false i hi, transformByte_dec_formula c N salt i _ (hW i hi), hk1, hk2, hsub]
  · rw [hk2, hsub]
  · rw [hk1, Nat.add_comm i salt]
    have hlt : salt + i < W64 := by omega
    rw [Nat.mod_eq_of_lt hlt]
  · simp [keyBytes]
  · unfold revPos fwdPos
    rw [hsub]
  · intro w a encrypt
    have hkey : ∀ j, j < N →
        getKeyByte c ((j + salt) % W64) = getKeyByte d ((j + salt) % W64) := by
      intro j hj
      rw [← keyBytes_getD c salt N j hj, ← keyBytes_getD d salt N j hj, hkeys]
    funext x
    rw [transform_apply, transform_apply]
    by_cases ha : a ≤ x ∧ x < a + N
    · have hj : x - a < N := by omega
      have hj2 : N - 1 - (x - a) < N := by omega
      have hs2 : N - (x - a) - 1 = N - 1 - (x - a) := by omega
      rw [if_pos ha, if_pos ha]
      have e1 := hkey _ hj
      have e2 := hkey _ hj2
      simp only [transformByte, hs2, e1, e2]
    · rw [if_neg ha, if_neg ha]

/-- C19, at a concrete input: pointer width 8, salt 0, index 2 of the window
`1, ..., 8`: the key bytes are `63, 110, 63, 195, 238, 250, 216, 102`, byte 2
is encrypted with entry 2 and, as second key byte, entry 5:
`rotl8(3 xor 63, 7) xor 250 = 228`. -/
theorem reverse_key_byte_mirrors_witness :
    keyBytes demoKeyed 0 8 = [63, 110, 63, 195, 238, 250, 216, 102]
      ∧ transform demoKeyed demoMem 16 8 0 true (16 + 2)
        = rotl8 (demoMem (16 + 2) ^^^ (keyBytes demoKeyed 0 8).getD 2 0)
              ((keyBytes demoKeyed 0 8).getD 2 0 % 8)
            ^^^ (keyBytes demoKeyed 0 8).getD (8 - 1 - 2) 0
      ∧ transform demoKeyed demoMem 16 8 0 true (16 + 2) = 228
      ∧ getKeyByte demoKeyed ((8 - 2 - 1 + 0) % W64) = (keyBytes demoKeyed 0 8).getD (8 - 1 - 2) 0 :=
  have h := reverse_key_byte_mirrors demoKeyed demoKeyed demoMem 16 8 0 2 (by decide)
    (by decide) demoMem_valid rfl
  ⟨by decide, h.1, by decide, h.2.2.1⟩

/-! ## The key schedule -/

theorem andFF_eq_mod256 (len : Nat) : len &&& 0xFF = len % 256 :=
  Nat.and_pow_two_sub_one_eq_mod len 8

theorem mixRounds_eq_iterate (n : Nat) :
    ∀ k : Nat × Nat × Nat, mixRounds n k = mixRoundRef^[n] k := by
  induction n with
  | zero =>
    intro k
    rfl
  | succ n ih =>
    intro k
    obtain ⟨k1, k2, k3⟩ := k
    rw [Function.iterate_succ_apply]
    simp only [mixRounds]
    rw [ih]
    rfl

theorem expandKey_keys_eq {σ : Type} (R : Rng σ) (c : VTableEncryption σ) (seed len : Nat) :
    (expandKey R c seed len).keys = mixRoundRef^[len % 256] (firstThree R seed) := by
  rw [← mixRounds_eq_iterate, ← andFF_eq_mod256]
  rfl

/-- C12. `expandKey(seed, len)` re-seeds the generator with `seed`, takes its
first three outputs as `(k1, k2, k3)` and performs exactly `len mod 256` rounds
of the sequential update; so `len` and `len + 256` give the same KeyState, and
when `len mod 256 = 0`, as for the constructor's `len = 256`, the KeyState is
the three raw generator outputs. -/
theorem expandKey_rounds {σ : Type} (R : Rng σ) (c : VTableEncryption σ) (g0 : σ)
    (seed len r1 r2 r3 : Nat) :
    (expandKey R c seed len).keys = mixRoundRef^[len % 256] (firstThree R seed)
      ∧ (expandKey R c seed len).gen = (R.next (R.next (R.next (R.seed seed)).2).2).2
      ∧ (expandKey R c seed (len + 256)).keys = (expandKey R c seed len).keys
      ∧ (expandKey R c seed ((len + 256) % W64)).keys = (expandKey R c seed len).keys
      ∧ (len % 256 = 0 → (expandKey R c seed len).keys = firstThree R seed)
      ∧ (VTableEncryption.new R g0 r1 r2 r3).keys
          = firstThree R (VTableEncryption.new R g0 r1 r2 r3).seed := by
  refine ⟨expandKey_keys_eq R c seed len, rfl, ?_, ?_, ?_, ?_⟩
  · rw [expandKey_keys_eq, expandKey_keys_eq, Nat.add_mod_right]
  · rw [expandKey_keys_eq, expandKey_keys_eq]
    have h : (len + 256) % W64 % 256 = len % 256 := by
      unfold W64
      omega
    rw [h]
  · intro h0
    rw [expandKey_keys_eq, h0]
    rfl
  · unfold VTableEncryption.new
    rw [expandKey_keys_eq]
    rfl

/-- C12, at a concrete input: on the standard engine with seed 1, `len = 256`
leaves the three raw outputs, and `len = 8` and `len = 264` the same
KeyState. -/
theorem expandKey_rounds_witness :
    (expandKey mt19937_64 demoCipher 1 256).keys = firstThree mt19937_64 1
      ∧ (expandKey mt19937_64 demoCipher 1 (8 + 256)).keys
          = (expandKey mt19937_64 demoCipher 1 8).keys :=
  have h := expandKey_rounds mt19937_64 demoCipher (mtSeed 5489) 1 256 0 1 0
  have h2 := expandKey_rounds mt19937_64 demoCipher (mtSeed 5489) 1 8 0 1 0
  ⟨h.2.2.2.2.1 (by decide), h2.2.2.1⟩

/-- Salts that are congruent modulo 256 give the same KeyState. -/
theorem expandKey_keys_salt_congr {σ : Type} (R : Rng σ) (c d : VTableEncryption σ)
    (seed a b : Nat) (hab : a % 256 = b % 256) :
    (expandKey R c seed ((ptrSize + a) % W64)).keys
      = (expandKey R d seed ((ptrSize + b) % W64)).keys := by
  rw [expandKey_keys_eq, expandKey_keys_eq]
  have h : (ptrSize + a) % W64 % 256 = (ptrSize + b) % W64 % 256 := by
    unfold W64 ptrSize
    omega
  rw [h]

/-! ## The function `mix` -/

theorem rotl31_eq (x : Nat) (hx : x < W64) :
    rotl x 31 = 2 ^ 31 * (x % 2 ^ 33) + x / 2 ^ 33 := by
  unfold rotl
  have h1 : (x <<< 31) % W64 = 2 ^ 31 * (x % 2 ^ 33) := by
    rw [Nat.shiftLeft_eq]
    unfold W64
    norm_num
    omega
  have h2 : x >>> (64 - 31) = x / 2 ^ 33 := by
    rw [Nat.shiftRight_eq_div_pow]
  have h3 : x / 2 ^ 33 < 2 ^ 31 := by
    unfold W64 at hx
    norm_num at hx ⊢
    omega
  rw [h1, h2]
  exact (Nat.mul_add_lt_is_or h3 _).symm

theorem rotr31_eq (x : Nat) (hx : x < W64) :
    rotr x 31 = 2 ^ 33 * (x % 2 ^ 31) + x / 2 ^ 31 := by
  unfold rotr
  have h1 : (x <<< (64 - 31)) % W64 = 2 ^ 33 * (x % 2 ^ 31) := by
    rw [Nat.shiftLeft_eq]
    unfold W64
    norm_num
    omega
  have h2 : x >>> 31 = x / 2 ^ 31 := by
    rw [Nat.shiftRight_eq_div_pow]
  have h3 : x / 2 ^ 31 < 2 ^ 33 := by
    unfold W64 at hx
    norm_num at hx ⊢
    omega
  rw [h1, h2, Nat.or_comm]
  exact (Nat.mul_add_lt_is_or h3 _).symm

theorem rotl31_lt (x : Nat) (hx : x < W64) : rotl x 31 < W64 := by
  rw [rotl31_eq x hx]
  unfold W64 at *
  norm_num at hx ⊢
  omega

theorem rotr31_lt (x : Nat) (hx : x < W64) : rotr x 31 < W64 := by
  rw [rotr31_eq x hx]
  unfold W64 at *
  norm_num at hx ⊢
  omega

theorem rotr31_rotl31 (x : Nat) (hx : x < W64) : rotr (rotl x 31) 31 = x := by
  rw [rotr31_eq _ (rotl31_lt x hx), rotl31_eq x hx]
  unfold W64 at hx
  norm_num at hx ⊢
  omega

theorem rotl31_rotr31 (x : Nat) (hx : x < W64) : rotl (rotr x 31) 31 = x := by
  rw [rotl31_eq _ (rotr31_lt x hx), rotr31_eq x hx]
  unfold W64 at hx
  norm_num at hx ⊢
  omega

/-- The rotation by 31 moves bit `(j + 33) mod 64` of a 64-bit word to
position `j`. -/
theorem rotl31_testBit (x j : Nat) (hx : x < W64) (hj : j < 64) :
    (rotl x 31).testBit j = x.testBit ((j + 33) % 64) := by
  unfold rotl
  simp only [Nat.testBit_or, Nat.testBit_mod_two_pow, Nat.testBit_shiftLeft,
    Nat.testBit_shiftRight, W64]
  by_cases h : j < 31
  · have e : (j + 33) % 64 = 64 - 31 + j := by omega
    have hn : ¬ j ≥ 31 := by omega
    simp [hn, e]
  · have e : (j + 33) % 64 = j - 31 := by omega
    have hge : j ≥ 31 := by omega
    have hhi : x.testBit (64 - 31 + j) = false := by
      apply Nat.testBit_lt_two_pow
      calc x < 2 ^ 64 := hx
        _ ≤ 2 ^ (64 - 31 + j) := Nat.pow_le_pow_right (by norm_num) (by omega)
    simp [hge, hj, e, hhi]

theorem mix_unfold (v s : Nat) :
    mix v s = (rotl (((v ^^^ s) * 0x9e3779b97f4a7c15) % W64) 31 * 0xbf58476d1ce4e5b9) % W64 :=
  rfl

theorem mix_lt (v s : Nat) : mix v s < W64 := by
  rw [mix_unfold]
  exact Nat.mod_lt _ (by decide)

theorem rotl31_eq_ref (x : Nat) (hx : x < W64) : rotl x 31 = rotl64Ref x 31 := by
  rw [rotl31_eq x hx]
  unfold rotl64Ref
  norm_num
  omega

theorem mul_inv_cancel_mod (a C D : Nat) (h : (C * D) % W64 = 1) (ha : a < W64) :
    (a * C % W64 * D) % W64 = a := by
  rw [Nat.mod_mul_mod, Nat.mul_assoc, Nat.mul_mod, h, Nat.mul_one, Nat.mod_mod,
    Nat.mod_eq_of_lt ha]

theorem xor_lt_W64 {x y : Nat} (hx : x < W64) (hy : y < W64) : x ^^^ y < W64 :=
  Nat.xor_lt_two_pow (n := 64) hx hy

theorem mixInv_lt (y s : Nat) (hs : s < W64) : mixInv y s < W64 :=
  xor_lt_W64 (Nat.mod_lt _ (by decide)) hs

theorem mixInv_mix (v s : Nat) (hv : v < W64) (hs : s < W64) : mixInv (mix v s) s = v := by
  rw [mix_unfold]
  unfold mixInv
  have ha : ((v ^^^ s) * 0x9e3779b97f4a7c15) % W64 < W64 := Nat.mod_lt _ (by decide)
  rw [mul_inv_cancel_mod _ _ _ (by decide) (rotl31_lt _ ha), rotr31_rotl31 _ ha,
    mul_inv_cancel_mod _ _ _ (by decide) (xor_lt_W64 hv hs), xor_xor_cancel]

theorem mix_mixInv (y s : Nat) (hy : y < W64) : mix (mixInv y s) s = y := by
  rw [mix_unfold]
  unfold mixInv
  have hb : (y * 0x96de1b173f119089) % W64 < W64 := Nat.mod_lt _ (by decide)
  rw [xor_xor_cancel, mul_inv_cancel_mod _ _ _ (by decide) (rotr31_lt _ hb),
    rotl31_rotr31 _ hb, mul_inv_cancel_mod _ _ _ (by decide) hy]

theorem mix_comm (v s : Nat) : mix v s = mix s v := by
  rw [mix_unfold, mix_unfold, Nat.xor_comm]

/-- C14. `mix` equals its reference definition over 64-bit wrap-around
arithmetic, `(rotl64(((v xor s) * 0x9e3779b97f4a7c15) mod 2^64, 31) *
0xbf58476d1ce4e5b9) mod 2^64`; both multipliers are odd, and the rotation by
31 is a true rotation of 64-bit words: it stays below `2^64` and moves bit
`(j - 31) mod 64` to position `j`. -/
theorem mix_eq_reference (v s : Nat) :
    mix v s = mixRef v s
      ∧ 0x9e3779b97f4a7c15 % 2 = 1
      ∧ 0xbf58476d1ce4e5b9 % 2 = 1
      ∧ (∀ x, x < W64 → rotl x 31 < W64)
      ∧ (∀ x j, x < W64 → j < 64 → (rotl x 31).testBit j = x.testBit ((j + 33) % 64)) := by
  refine ⟨?_, by decide, by decide, rotl31_lt, fun x j hx hj => rotl31_testBit x j hx hj⟩
  rw [mix_unfold, rotl31_eq_ref _ (Nat.mod_lt _ (by decide))]
  rfl

/-- C14, at a concrete input: `mix(1, 2)`, and bit 31 of the rotation of the
word 1. -/
theorem mix_eq_reference_witness :
    mix 1 2 = 18249254540908863590
      ∧ mixRef 1 2 = 18249254540908863590
      ∧ (rotl 1 31).testBit 31 = (1 : Nat).testBit ((31 + 33) % 64) :=
  have h := mix_eq_reference 1 2
  ⟨by decide, h.1.symm.trans (by decide), h.2.2.2.2 1 31 (by decide) (by decide)⟩

/-- C17. For every fixed 64-bit `s`, `mix(., s)` is a bijection on 64-bit
words, and for every fixed 64-bit `v` so is `mix(v, .)`, as `mix` depends on
its arguments only through `v xor s`; `mixInv` is the inverse. -/
theorem mix_bijective (v s : Nat) (hv : v < W64) (hs : s < W64) :
    Set.BijOn (fun x => mix x s) (Set.Iio W64) (Set.Iio W64)
      ∧ Set.BijOn (fun y => mix v y) (Set.Iio W64) (Set.Iio W64)
      ∧ mix v s = mix (v ^^^ s) 0
      ∧ mixInv (mix v s) s = v := by
  refine ⟨⟨fun x _ => mix_lt x s, ?_, ?_⟩, ⟨fun y _ => mix_lt v y, ?_, ?_⟩, ?_,
    mixInv_mix v s hv hs⟩
  · intro a ha b hb hab
    have h := congrArg (fun y => mixInv y s) hab
    simp only at h
    rwa [mixInv_mix a s ha hs, mixInv_mix b s hb hs] at h
  · intro y hy
    exact ⟨mixInv y s, mixInv_lt y s hs, mix_mixInv y s hy⟩
  · intro a ha b hb hab
    simp only at hab
    rw [mix_comm v a, mix_comm v b] at hab
    have h := congrArg (fun y => mixInv y v) hab
    simp only at h
    rwa [mixInv_mix a v ha hv, mixInv_mix b v hb hv] at h
  · intro y hy
    refine ⟨mixInv y v, mixInv_lt y v hv, ?_⟩
    simp only
    rw [mix_comm]
    exact mix_mixInv y v hy
  · rw [mix_unfold, mix_unfold, Nat.xor_zero]

/-- C17, at a concrete input: `mix(., 5)` is a bijection on 64-bit words, and
`mixInv` recovers 7 from `mix(7, 5)`. -/
theorem mix_bijective_witness :
    Set.BijOn (fun x => mix x 5) (Set.Iio W64) (Set.Iio W64)
      ∧ mix 7 5 = 10297670523424699313
      ∧ mixInv 10297670523424699313 5 = 7 :=
  ⟨(mix_bijective 7 5 (by decide) (by decide)).1, by decide, by decide⟩

/-! ## Bit diffusion of `mix` -/

theorem samplesCover_true : samplesCover = true := by
  decide

theorem xor_two_pow_mod (w i : Nat) : (w ^^^ 2 ^ i) % 2 ^ i = w % 2 ^ i := by
  apply Nat.eq_of_testBit_eq
  intro k
  simp only [Nat.testBit_mod_two_pow, Nat.testBit_xor, Nat.testBit_two_pow]
  by_cases hk : k < i
  · have hne : ¬ i = k := by omega
    simp [hk, hne]
  · simp [hk]

/-- Words that agree modulo `2^(k+33)` have rotations by 31 that agree modulo
`2^k`, for `k ≤ 31`. -/
theorem rotl31_mod (x y k : Nat) (hx : x < W64) (hy : y < W64) (hk : k ≤ 31)
    (h : x % 2 ^ (k + 33) = y % 2 ^ (k + 33)) :
    rotl x 31 % 2 ^ k = rotl y 31 % 2 ^ k := by
  have key : ∀ z, z < W64 → rotl z 31 % 2 ^ k = z % 2 ^ (k + 33) / 2 ^ 33 := by
    intro z hz
    rw [rotl31_eq z hz]
    have hd : 2 ^ k ∣ 2 ^ 31 * (z % 2 ^ 33) :=
      Dvd.dvd.mul_right (Nat.pow_dvd_pow 2 hk) _
    obtain ⟨q, hq⟩ := hd
    rw [hq, Nat.add_comm, Nat.add_mul_mod_self_left, ← Nat.mod_mul_right_div_self,
      ← Nat.pow_add, Nat.add_comm 33 k]
  rw [key x hx, key y hy, h]

/-- Flipping bit `i ≥ 34` of `v` leaves the output bits below `i - 33`
unchanged. -/
theorem mix_low_bits_fixed (i j v s : Nat) (hi : i < 64) (hj : j + 33 < i) :
    (mix (v ^^^ 2 ^ i) s).testBit j = (mix v s).testBit j := by
  have hdvd : 2 ^ i ∣ W64 := Nat.pow_dvd_pow 2 (by omega)
  have hw : ((v ^^^ 2 ^ i) ^^^ s) % 2 ^ i = (v ^^^ s) % 2 ^ i := by
    rw [Nat.xor_assoc, Nat.xor_comm (2 ^ i) s, ← Nat.xor_assoc, xor_two_pow_mod]
  have hx : (((v ^^^ 2 ^ i) ^^^ s) * 0x9e3779b97f4a7c15 % W64) % 2 ^ (i - 33 + 33)
      = ((v ^^^ s) * 0x9e3779b97f4a7c15 % W64) % 2 ^ (i - 33 + 33) := by
    have e : i - 33 + 33 = i := by omega
    rw [e, Nat.mod_mod_of_dvd _ hdvd, Nat.mod_mod_of_dvd _ hdvd, Nat.mul_mod, hw,
      ← Nat.mul_mod]
  have hy := rotl31_mod _ _ (i - 33) (Nat.mod_lt _ (by decide)) (Nat.mod_lt _ (by decide))
    (by omega) hx
  have hdvd2 : 2 ^ (i - 33) ∣ W64 := Nat.pow_dvd_pow 2 (by omega)
  have ho : mix (v ^^^ 2 ^ i) s % 2 ^ (i - 33) = mix v s % 2 ^ (i - 33) := by
    rw [mix_unfold, mix_unfold, Nat.mod_mod_of_dvd _ hdvd2, Nat.mod_mod_of_dvd _ hdvd2,
      Nat.mul_mod, hy, ← Nat.mul_mod]
  have hbit : ∀ z : Nat, z.testBit j = (z % 2 ^ (i - 33)).testBit j := by
    intro z
    rw [Nat.testBit_mod_two_pow]
    have : j < i - 33 := by omega
    simp [this]
  rw [hbit (mix (v ^^^ 2 ^ i) s), hbit (mix v s), ho]

theorem diffusionSamples_lt : ∀ v, v ∈ diffusionSamples → v < W64 := by
  decide

theorem samples_flip (i j : Nat) (hi : i < 64) (hj : j < 64) (h : i ≤ 33 ∨ i ≤ j + 33) :
    ∃ v, v ∈ diffusionSamples ∧ flips i j v 0 = true := by
  have hc := samplesCover_true
  simp only [samplesCover, List.all_eq_true, List.mem_range, Bool.or_eq_true,
    Bool.not_eq_true', List.any_eq_true, decide_eq_true_eq, decide_eq_false_iff_not] at hc
  rcases hc i hi j hj with hneg | hpos
  · simp only [Bool.or_eq_false_iff, decide_eq_false_iff_not] at hneg
    omega
  · exact hpos

/-- C15, refuted at a concrete input: flipping bit 63 of `v` never flips bit
0 of `mix(v, s)`, whatever `v` and `s`. -/
theorem mix_diffusion_counterexample :
    ¬ ∃ v s, flips 63 0 v s = true := by
  rintro ⟨v, s, h⟩
  have e := mix_low_bits_fixed 63 0 v s (by decide) (by decide)
  unfold flips at h
  rw [e] at h
  simp at h

/-- C15, as amended: for input bit `i` and output bit `j` below 64, there are
64-bit `v` and `s` such that flipping bit `i` of `v` flips bit `j` of
`mix(v, s)` exactly when `i ≤ 33` or `j ≥ i - 33`; flipping an input bit
`i ≥ 34` never changes the output bits below `i - 33`. -/
theorem mix_diffusion_iff (i j : Nat) (hi : i < 64) (hj : j < 64) :
    (∃ v s, v < W64 ∧ s < W64 ∧ flips i j v s = true) ↔ (i ≤ 33 ∨ i ≤ j + 33) := by
  constructor
  · rintro ⟨v, s, _, _, h⟩
    by_contra hcon
    have e := mix_low_bits_fixed i j v s hi (by omega)
    unfold flips at h
    rw [e] at h
    simp at h
  · intro h
    obtain ⟨v, hv, hf⟩ := samples_flip i j hi hj h
    exact ⟨v, 0, diffusionSamples_lt v hv, by decide, hf⟩

/-- C15 as amended, at a concrete input: flipping bit 0 of `v` can flip bit 63
of the output, and flipping bit 63 can flip bit 30. -/
theorem mix_diffusion_iff_witness :
    (∃ v s, v < W64 ∧ s < W64 ∧ flips 0 63 v s = true)
      ∧ (∃ v s, v < W64 ∧ s < W64 ∧ flips 63 30 v s = true) :=
  ⟨(mix_diffusion_iff 0 63 (by decide) (by decide)).mpr (by decide),
   (mix_diffusion_iff 63 30 (by decide) (by decide)).mpr (by decide)⟩

/-! ## XOR differences under encryption -/

theorem xor_xor_xor_same (a b k : Nat) : (a ^^^ k) ^^^ (b ^^^ k) = a ^^^ b := by
  apply Nat.eq_of_testBit_eq
  intro j
  simp only [Nat.testBit_xor]
  cases a.testBit j <;> cases b.testBit j <;> cases k.testBit j <;> rfl

theorem testBit_byte_high (x k : Nat) (hx : x < 256) (hk : 8 ≤ k) : x.testBit k = false := by
  apply Nat.testBit_lt_two_pow
  calc x < 2 ^ 8 := hx
    _ ≤ 2 ^ k := Nat.pow_le_pow_right (by norm_num) hk

/-- The byte rotation is linear over xor. -/
theorem rotl8_xor (x y r : Nat) (hx : x < 256) (hy : y < 256) :
    rotl8 (x ^^^ y) r = rotl8 x r ^^^ rotl8 y r := by
  unfold rotl8
  have hq := and7_lt r
  generalize r &&& 7 = q at hq
  apply Nat.eq_of_testBit_eq
  intro j
  have e256 : (256 : Nat) = 2 ^ 8 := by norm_num
  simp only [e256, Nat.testBit_mod_two_pow, Nat.testBit_or, Nat.testBit_xor,
    Nat.testBit_shiftLeft, Nat.testBit_shiftRight]
  by_cases h8 : j < 8
  · by_cases hj : j < q
    · have hn : ¬ j ≥ q := by omega
      simp [hn, h8]
    · have hge : j ≥ q := by omega
      have h1 := testBit_byte_high x (8 - q + j) hx (by omega)
      have h2 := testBit_byte_high y (8 - q + j) hy (by omega)
      simp [hge, h1, h2, h8]
  · simp [h8]

theorem popcount8_rotl8_small :
    ∀ d, d < 256 → ∀ r, r < 8 → popcount8 (rotl8 d r) = popcount8 d := by
  decide

theorem popcount8_rotl8 (d r : Nat) (hd : d < 256) : popcount8 (rotl8 d r) = popcount8 d := by
  rw [← rotl8_mod8]
  exact popcount8_rotl8_small d hd (r % 8) (Nat.mod_lt _ (by norm_num))

/-- The xor of two encrypted bytes is the rotated xor of the plaintext
bytes. -/
theorem transformByte_enc_xor {σ : Type} (c : VTableEncryption σ) (size salt i b1 b2 : Nat)
    (h1 : b1 < 256) (h2 : b2 < 256) :
    transformByte c size salt true i b1 ^^^ transformByte c size salt true i b2
      = rotl8 (b1 ^^^ b2) (getKeyByte c ((i + salt) % W64) % 8) := by
  have hk := getKeyByte_lt c ((i + salt) % W64)
  rw [transformByte_enc_formula c size salt i b1 h1,
    transformByte_enc_formula c size salt i b2 h2, xor_xor_xor_same,
    ← rotl8_xor _ _ _ (Nat.xor_lt_two_pow (n := 8) h1 hk) (Nat.xor_lt_two_pow (n := 8) h2 hk),
    xor_xor_xor_same]

/-- C18. Encryption preserves xor differences up to a byte rotation and has no
cross-byte diffusion: at every index `i < N`, the xor of the two ciphertext
bytes is `rotl8(W1[i] xor W2[i], getKeyByte(i + salt) mod 8)`; ciphertext byte
`i` is the same for any window with the same byte `i`; and two plaintext
windows differ in as many bits as their ciphertexts. -/
theorem encrypt_xor_difference {σ : Type} (c : VTableEncryption σ) (m1 m2 m3 : Mem)
    (data N salt i : Nat) (h1 : ValidWindow m1 data N) (h2 : ValidWindow m2 data N)
    (hi : i < N) (h3 : m3 (data + i) = m1 (data + i)) :
    transform c m1 data N salt true (data + i) ^^^ transform c m2 data N salt true (data + i)
        = rotl8 (m1 (data + i) ^^^ m2 (data + i)) (getKeyByte c ((i + salt) % W64) % 8)
      ∧ transform c m3 data N salt true (data + i)
        = transform c m1 data N salt true (data + i)
      ∧ hammingWindow (transform c m1 data N salt true) (transform c m2 data N salt true) data N
        = hammingWindow m1 m2 data N := by
  refine ⟨?_, ?_, ?_⟩
  · rw [transform_inside c m1 data N salt true i hi, transform_inside c m2 data N salt true i hi]
    exact transformByte_enc_xor c N salt i _ _ (h1 i hi) (h2 i hi)
  · rw [transform_inside c m3 data N salt true i hi, transform_inside c m1 data N salt true i hi,
      h3]
  · unfold hammingWindow
    congr 1
    apply List.map_congr_left
    intro k hk
    have hkN : k < N := List.mem_range.mp hk
    rw [transform_inside c m1 data N salt true k hkN,
      transform_inside c m2 data N salt true k hkN,
      transformByte_enc_xor c N salt k _ _ (h1 k hkN) (h2 k hkN)]
    exact popcount8_rotl8 _ _ (Nat.xor_lt_two_pow (n := 8) (h1 k hkN) (h2 k hkN))

/-- C18, at a concrete input: `demoMem` against the same memory with byte 2 of
the window changed from 3 to 2: the windows differ in one bit, and so do the
ciphertexts. -/
theorem encrypt_xor_difference_witness :
    hammingWindow demoMem (Function.update demoMem 18 2) 16 8 = 1
      ∧ hammingWindow (transform demoKeyed demoMem 16 8 0 true)
          (transform demoKeyed (Function.update demoMem 18 2) 16 8 0 true) 16 8
        = hammingWindow demoMem (Function.update demoMem 18 2) 16 8 :=
  ⟨by decide,
   (encrypt_xor_difference demoKeyed demoMem (Function.update demoMem 18 2) demoMem 16 8 0 2
      demoMem_valid (by decide) (by decide) rfl).2.2⟩

/-! ## Salt divergence -/

theorem shiftRight_le_self (x n : Nat) : x >>> n ≤ x := by
  rw [Nat.shiftRight_eq_div_pow]
  exact Nat.div_le_self _ _

theorem and_lt_W64 (x y : Nat) (hy : y < W64) : x &&& y < W64 :=
  Nat.lt_of_le_of_lt Nat.and_le_right hy

theorem mtTemper_lt (x : Nat) (hx : x < W64) : mtTemper x < W64 := by
  unfold mtTemper
  have h1 : x ^^^ ((x >>> 29) &&& 0x5555555555555555) < W64 :=
    xor_lt_W64 hx (and_lt_W64 _ _ (by decide))
  have h2 := xor_lt_W64 h1 (and_lt_W64
    (((x ^^^ ((x >>> 29) &&& 0x5555555555555555)) <<< 17) % W64) 0x71D67FFFEDA60000
    (by decide))
  have h3 := xor_lt_W64 h2 (and_lt_W64
    (((x ^^^ ((x >>> 29) &&& 0x5555555555555555)
        ^^^ (((x ^^^ ((x >>> 29) &&& 0x5555555555555555)) <<< 17) % W64
          &&& 0x71D67FFFEDA60000)) <<< 37) % W64) 0xFFF7EEE000000000 (by decide))
  exact xor_lt_W64 h3 (Nat.lt_of_le_of_lt (shiftRight_le_self _ _) h3)

theorem getD_lt_W64 (s : List Nat) (hs : ∀ x, x ∈ s → x < W64) (j : Nat) :
    s.getD j 0 < W64 := by
  by_cases hj : j < s.length
  · rw [List.getD_eq_getElem _ _ hj]
    exact hs _ (List.getElem_mem _)
  · rw [List.getD_eq_default _ _ (by omega)]
    decide

theorem mtNext_lt (s : List Nat) (hs : ∀ x, x ∈ s → x < W64) :
    (mtNext s).1 < W64 ∧ ∀ x, x ∈ (mtNext s).2 → x < W64 := by
  have hy : (s.getD 0 0 &&& 0xFFFFFFFF80000000) ||| (s.getD 1 0 &&& 0x7FFFFFFF) < W64 :=
    Nat.or_lt_two_pow (n := 64) (and_lt_W64 _ _ (by decide)) (and_lt_W64 _ _ (by decide))
  have ha : (if ((s.getD 0 0 &&& 0xFFFFFFFF80000000) ||| (s.getD 1 0 &&& 0x7FFFFFFF)) % 2 = 1
      then 0xB5026F5AA96619E9 else 0) < W64 := by
    split <;> decide
  have hx := xor_lt_W64 (xor_lt_W64 (getD_lt_W64 s hs 156)
    (Nat.lt_of_le_of_lt (shiftRight_le_self _ 1) hy)) ha
  refine ⟨mtTemper_lt _ hx, ?_⟩
  intro x hxm
  simp only [mtNext, List.mem_append, List.mem_singleton] at hxm
  rcases hxm with h | h
  · exact hs x (List.mem_of_mem_tail h)
  · rw [h]
    exact hx

theorem mtInit_lt (n : Nat) : ∀ (i p x : Nat), x ∈ mtInit n i p → x < W64 := by
  induction n with
  | zero =>
    intro i p x hx
    simp [mtInit] at hx
  | succ n ih =>
    intro i p x hx
    simp only [mtInit, List.mem_cons] at hx
    rcases hx with h | h
    · rw [h]
      exact Nat.mod_lt _ (by decide)
    · exact ih _ _ x h

theorem mtSeed_lt (value : Nat) : ∀ x, x ∈ mtSeed value → x < W64 := by
  intro x hx
  simp only [mtSeed, List.mem_cons] at hx
  rcases hx with h | h
  · rw [h]
    exact Nat.mod_lt _ (by decide)
  · exact mtInit_lt _ _ _ x h

/-- The outputs of the standard engine are 64-bit words, for every seed. -/
theorem mt19937_64_words (seed : Nat) : Words64 (firstThree mt19937_64 seed) := by
  have h1 := mtNext_lt (mtSeed seed) (mtSeed_lt seed)
  have h2 := mtNext_lt _ h1.2
  have h3 := mtNext_lt _ h2.2
  exact ⟨h1.1, h2.1, h3.1⟩

theorem mixRoundRef_words (k : Nat × Nat × Nat) : Words64 (mixRoundRef k) :=
  ⟨mix_lt _ _, mix_lt _ _, mix_lt _ _⟩

theorem mix_left_cancel (a b s : Nat) (ha : a < W64) (hb : b < W64) (hs : s < W64)
    (h : mix a s = mix b s) : a = b := by
  have e := congrArg (fun y => mixInv y s) h
  simp only at e
  rwa [mixInv_mix a s ha hs, mixInv_mix b s hb hs] at e

/-- One round of the key schedule is injective on 64-bit working values. -/
theorem mixRoundRef_injective (k j : Nat × Nat × Nat) (hk : Words64 k) (hj : Words64 j)
    (h : mixRoundRef k = mixRoundRef j) : k = j := by
  obtain ⟨k1, k2, k3⟩ := k
  obtain ⟨j1, j2, j3⟩ := j
  obtain ⟨hk1, hk2, hk3⟩ := hk
  obtain ⟨hj1, hj2, hj3⟩ := hj
  simp only at hk1 hk2 hk3 hj1 hj2 hj3
  simp only [mixRoundRef, Prod.mk.injEq] at h
  obtain ⟨ha, hb, hc⟩ := h
  rw [← ha] at hc
  have e3 : k3 = j3 := mix_left_cancel k3 j3 _ hk3 hj3 (mix_lt _ _) hc
  subst e3
  have e2 : k2 = j2 := mix_left_cancel k2 j2 _ hk2 hj2 hk3 hb
  subst e2
  have e1 : k1 = j1 := mix_left_cancel k1 j1 _ hk1 hj1 hk2 ha
  subst e1
  rfl

theorem iterate_words (n : Nat) (k : Nat × Nat × Nat) (hk : Words64 k) :
    Words64 (mixRoundRef^[n] k) := by
  cases n with
  | zero => exact hk
  | succ n =>
    rw [Function.iterate_succ_apply']
    exact mixRoundRef_words _

theorem iterate_injective (n : Nat) :
    ∀ (k j : Nat × Nat × Nat), Words64 k → Words64 j →
      mixRoundRef^[n] k = mixRoundRef^[n] j → k = j := by
  induction n with
  | zero =>
    intro k j _ _ h
    exact h
  | succ n ih =>
    intro k j hk hj h
    rw [Function.iterate_succ_apply, Function.iterate_succ_apply] at h
    exact mixRoundRef_injective k j hk hj
      (ih _ _ (mixRoundRef_words k) (mixRoundRef_words j) h)

/-- Two round counts give the same working values exactly when the rounds in
between bring the starting values back. -/
theorem iterate_eq_iff (n m : Nat) (hnm : n ≤ m) (k : Nat × Nat × Nat) (hk : Words64 k) :
    mixRoundRef^[n] k = mixRoundRef^[m] k ↔ mixRoundRef^[m - n] k = k := by
  have e : m = n + (m - n) := by omega
  constructor
  · intro h
    rw [e, Function.iterate_add_apply] at h
    exact (iterate_injective n _ _ hk (iterate_words _ k hk) h).symm
  · intro h
    conv => rhs; rw [e, Function.iterate_add_apply, h]

theorem saltRounds_eq (a : Nat) : saltRounds a = (ptrSize + a) % W64 % 256 :=
  andFF_eq_mod256 _

end VTableEnc
